import Mathlib

/-!
# Verification of the `lars.cache` LRU caching module

A shallow embedding of `src/lars/cache.py` (a backport of Python 3.3's
`functools.lru_cache`, from Raymond Hettinger's recipe) and proofs of the
frozen claims about it.

The embedding models:

* Python argument values (`PyVal`): integers, floats (with integral value,
  sufficient for the spec's `3` vs `3.0` scenarios), strings, `None`,
  tuples and (unhashable) lists.  Python `==` on these values is `pyEq`
  (note `3 == 3.0` is true while `type(3) ≠ type(3.0)`); `frozenset`
  from the source's fast-type set lies outside the modelled value universe.
* cache keys (`CacheKey`): either a bare fast-path value, the raw positional
  argument tuple (used directly by the bounded wrapper when no keyword
  arguments are given and `typed` is false), or a `_HashedSeq` wrapping a
  composed element list.  `_HashedSeq` is a Python `list`, so it never
  compares equal to a bare value or to a tuple key.
* the key builder `_make_key` (`mkKey`), the three wrapper modes
  (`disabledCall`, `unboundedCall`, `boundedCall` — the bounded cache core
  `boundedStep` is generic in the key type, mirroring the duck-typed
  source), `cache_info` and `cache_clear`.

Python dictionaries are modelled as association lists looked up with
Python `==` on keys (stored key compared against the probe key); this is
faithful because Python requires `==`-equal keys to have `==`-equal hashes,
and all key types produced here satisfy that invariant.  Exceptions are
modelled with `Except`: a call returns the post-call cache state together
with either a result or the propagated error.
-/

/-- Python errors relevant to the cache: `TypeError` (raised by `hash()` on an
unhashable value), `KeyError` (raised by `del cache[oldkey]` when the key is
absent), and an opaque error raised by the wrapped user function. -/
inductive PyErr : Type where
  | typeError : PyErr
  | keyError : PyErr
  | userError : Nat → PyErr
deriving DecidableEq, Repr

/-- Python argument values.  Floats are modelled with integral values only
(`vfloat n` stands for the float `n.0`), which suffices for every claim; the
spec's own example is `3` versus `3.0`. -/
inductive PyVal : Type where
  | vint : Int → PyVal
  | vfloat : Int → PyVal
  | vstr : String → PyVal
  | vnone : PyVal
  | vtuple : List PyVal → PyVal
  | vlist : List PyVal → PyVal

/-- Python runtime types of the modelled values (`type(v)`). -/
inductive PyType : Type where
  | tint | tfloat | tstr | tnone | ttuple | tlist
deriving DecidableEq, Repr

/-- `type(v)` for a modelled value. -/
def pyType : PyVal → PyType
  | .vint _ => .tint
  | .vfloat _ => .tfloat
  | .vstr _ => .tstr
  | .vnone => .tnone
  | .vtuple _ => .ttuple
  | .vlist _ => .tlist

mutual

/-- Python `==` on the modelled values.  An integer equals a float of the
same numeric value (`3 == 3.0`); tuples and lists compare elementwise with
values of their own kind and are never `==` to each other or to scalars. -/
def pyEq : PyVal → PyVal → Bool
  | .vint m, .vint n => m == n
  | .vint m, .vfloat n => m == n
  | .vfloat m, .vint n => m == n
  | .vfloat m, .vfloat n => m == n
  | .vstr a, .vstr b => a == b
  | .vnone, .vnone => true
  | .vtuple l, .vtuple r => pyListEq l r
  | .vlist l, .vlist r => pyListEq l r
  | _, _ => false

/-- Elementwise Python `==` on value sequences (tuple/list comparison). -/
def pyListEq : List PyVal → List PyVal → Bool
  | [], [] => true
  | a :: as', b :: bs' => pyEq a b && pyListEq as' bs'
  | _, _ => false

end

mutual

/-- Whether `hash(v)` succeeds: lists are unhashable, tuples are hashable
exactly when all their components are, scalars are hashable. -/
def pyHashable : PyVal → Bool
  | .vint _ => true
  | .vfloat _ => true
  | .vstr _ => true
  | .vnone => true
  | .vtuple l => pyListHashable l
  | .vlist _ => false

/-- All values of a sequence are hashable. -/
def pyListHashable : List PyVal → Bool
  | [] => true
  | a :: as' => pyHashable a && pyListHashable as'

end

/-- One element of the composed key sequence built by `_make_key`: an
argument value, a runtime type (from the `typed` augmentation), or the
unique keyword separator `kwd_mark = (object(),)`. -/
inductive KeyElem : Type where
  | val : PyVal → KeyElem
  | typ : PyType → KeyElem
  | mark : KeyElem

/-- Python `==` on key elements.  The separator is a fresh `object()`, equal
only to itself; type objects are equal only to the same type; a value is
never `==` to a type object or to the separator. -/
def keyElemEq : KeyElem → KeyElem → Bool
  | .val a, .val b => pyEq a b
  | .typ a, .typ b => a == b
  | .mark, .mark => true
  | _, _ => false

/-- Elementwise `==` on key element sequences (the `_HashedSeq` list body). -/
def keyElemListEq : List KeyElem → List KeyElem → Bool
  | [], [] => true
  | a :: as', b :: bs' => keyElemEq a b && keyElemListEq as' bs'
  | _, _ => false

/-- A cache key as produced by the wrappers: a bare fast-path value
(`_make_key`'s `return key[0]`), the raw positional argument tuple (the
bounded wrapper's `key = args` path), or a `_HashedSeq` (a `list` subclass)
over the composed element sequence. -/
inductive CacheKey : Type where
  | bare : PyVal → CacheKey
  | argsTuple : List PyVal → CacheKey
  | hashedSeq : List KeyElem → CacheKey

/-- Python `==` on cache keys, as used by dictionary lookup.  A `_HashedSeq`
is a `list`, so it is never `==` to a tuple key or to any bare fast-path
value (the fast types are `int`, `str`, `frozenset`, `NoneType`, none of
which compares equal to a list); a bare value is compared against a tuple
key with plain value equality. -/
def keyEq : CacheKey → CacheKey → Bool
  | .bare a, .bare b => pyEq a b
  | .argsTuple a, .argsTuple b => pyListEq a b
  | .hashedSeq a, .hashedSeq b => keyElemListEq a b
  | .bare a, .argsTuple l => pyEq a (.vtuple l)
  | .argsTuple l, .bare a => pyEq (.vtuple l) a
  | _, _ => false

/-- Whether hashing the key succeeds at dictionary lookup time.  A
`_HashedSeq` carries its hash precomputed at construction (where
hashability was already checked), so it always hashes. -/
def keyHashable : CacheKey → Bool
  | .bare v => pyHashable v
  | .argsTuple l => pyListHashable l
  | .hashedSeq _ => true

/-- Membership in `_make_key`'s `fasttypes = {int, str, frozenset, type(None)}`,
restricted to the modelled type universe (`frozenset` values are not
modelled). -/
def fastType : PyType → Bool
  | .tint => true
  | .tstr => true
  | .tnone => true
  | _ => false

/-- Whether a key element is hashable (type objects and the separator always
are). -/
def keyElemHashable : KeyElem → Bool
  | .val v => pyHashable v
  | .typ _ => true
  | .mark => true

/-- Python `<` on one character: comparison of code points. -/
def charLtB (a b : Char) : Bool := a.val.toNat < b.val.toNat

/-- Python `<` on strings: lexicographic comparison by code point. -/
def strLtB : List Char → List Char → Bool
  | [], [] => false
  | [], _ :: _ => true
  | _ :: _, [] => false
  | a :: as', b :: bs' =>
    if charLtB a b then true else if charLtB b a then false else strLtB as' bs'

/-- Python `<=` on strings (a total order: `a <= b` iff not `b < a`). -/
def strLeB (a b : String) : Bool := !(strLtB b.data a.data)

/-- `sorted(kwds.items())`: keyword items sorted by keyword name.  Python
compares the `(name, value)` tuples, but the names of a keyword mapping are
pairwise distinct, so the comparison never reaches the values and any
correct ascending sort produces the same list (sorting such a list has a
unique result, so stability of Python's sort is immaterial). -/
def sortKwds (kwds : List (String × PyVal)) : List (String × PyVal) :=
  kwds.insertionSort (fun a b => strLeB a.1 b.1 = true)

/-- The flattening `for item in sorted_items: key += item`: each `(name,
value)` pair contributes the name (a string value) and then the value. -/
def kwdFlat (items : List (String × PyVal)) : List KeyElem :=
  items.flatMap (fun kv => [.val (.vstr kv.1), .val kv.2])

/-- `_HashedSeq(key)`: computes `hash(tuple(key))` at construction, which
raises `TypeError` if any component is unhashable. -/
def mkHashedSeq (key : List KeyElem) : Except PyErr CacheKey :=
  if key.all keyElemHashable then .ok (.hashedSeq key) else .error .typeError

/-- The key sequence before the typed augmentation: the positional
arguments, then — if keyword arguments are present — the separator followed
by the sorted keyword items. -/
def keyBase (args : List PyVal) (kwds : List (String × PyVal)) : List KeyElem :=
  if kwds.isEmpty then args.map KeyElem.val
  else args.map KeyElem.val ++ KeyElem.mark :: kwdFlat (sortKwds kwds)

/-- The typed augmentation: the runtime types of the positional arguments,
then — if keyword arguments are present — of the keyword values in the same
sorted order. -/
def typedTail (args : List PyVal) (kwds : List (String × PyVal)) : List KeyElem :=
  args.map (fun v => KeyElem.typ (pyType v)) ++
    (if kwds.isEmpty then []
     else (sortKwds kwds).map (fun kv => KeyElem.typ (pyType kv.2)))

/-- The untyped tail of `_make_key`: if the composed key is a single
positional argument of a fast type, return it bare; else wrap in a
`_HashedSeq`. -/
def mkKeyUntyped (key : List KeyElem) : Except PyErr CacheKey :=
  match key with
  | [KeyElem.val v] => if fastType (pyType v) then .ok (.bare v) else mkHashedSeq key
  | _ => mkHashedSeq key

/-- `_make_key(args, kwds, typed)`: start from the positional arguments;
if keyword arguments are present append the separator and the sorted
keyword items; if `typed`, append the runtime types and wrap in a
`_HashedSeq`; otherwise apply the single-fast-argument fast path or wrap in
a `_HashedSeq`. -/
def mkKey (args : List PyVal) (kwds : List (String × PyVal)) (typed : Bool) :
    Except PyErr CacheKey :=
  if typed then mkHashedSeq (keyBase args kwds ++ typedTail args kwds)
  else mkKeyUntyped (keyBase args kwds)

/-! ## The cache state and the three wrapper modes

The mutable state captured by the decorator's closure: the `cache`
dictionary together with the recency order of the circular doubly linked
list (one association list, least-recently-used first, most-recently-used
last — the node after the sentinel `root` is the oldest, the node before it
the newest), and the `stats` pair.  The bounded cache core is generic in
the key type with an explicit Python-`==` test, exactly as the duck-typed
source is. -/

/-- The closure state of one cache: entries in recency order (LRU first,
MRU last; in unbounded mode the order is just insertion order and never
consulted), plus the `stats = [HITS, MISSES]` counters. -/
structure CState (K : Type) (V : Type) where
  entries : List (K × V)
  hits : Nat
  misses : Nat
deriving Repr

/-- The state at decoration time: empty `cache`, `root` pointing to itself,
`stats = [0, 0]`. -/
def initState {K V : Type} : CState K V := ⟨[], 0, 0⟩

/-- Dictionary lookup `cache_get(key)`: find the entry whose stored key is
Python-`==` to the probe key (the stored key is the left operand, as in
CPython's dict probing). -/
def lookupEntry {K V : Type} (keq : K → K → Bool) (entries : List (K × V)) (k : K) :
    Option (K × V) :=
  entries.find? (fun e => keq e.1 k)

/-- Remove the first entry whose stored key is `==` to the probe key,
returning it and the remaining list in order (the hit path's unlinking of
`link` from the recency list). -/
def extract {K V : Type} (keq : K → K → Bool) (k : K) :
    List (K × V) → Option ((K × V) × List (K × V))
  | [] => none
  | e :: rest =>
    if keq e.1 k then some (e, rest)
    else match extract keq k rest with
      | some (f, rest') => some (f, e :: rest')
      | none => none

/-- The bounded wrapper body after key construction (source lines 160–202),
generic in the key type.  `comp` is what the wrapped `user_function` does on
this call: it is consumed only on the miss path.  On a hit the link keeps
its originally stored key and is relinked at the MRU end; on a miss the
computation runs outside the lock, then the dead-in-sequential-code
concurrent re-check, then either eviction (reuse the old root: the key at
the LRU end is deleted and the new entry appears at the MRU end — on an
empty list this is `del cache[oldkey]` with `oldkey` absent, a `KeyError`)
or a plain append at the MRU end. -/
def boundedStep {K V : Type} (keq : K → K → Bool) (maxsize : Int)
    (s : CState K V) (k : K) (comp : Except PyErr V) :
    CState K V × Except PyErr V :=
  match extract keq k s.entries with
  | some (link, rest) =>
    ({ s with entries := rest ++ [link], hits := s.hits + 1 }, .ok link.2)
  | none =>
    match comp with
    | .error e => (s, .error e)
    | .ok result =>
      if (lookupEntry keq s.entries k).isSome then
        ({ s with misses := s.misses + 1 }, .ok result)
      else if (s.entries.length : Int) ≥ maxsize then
        match s.entries with
        | [] => (s, .error .keyError)
        | _oldest :: rest =>
          ({ s with entries := rest ++ [(k, result)], misses := s.misses + 1 }, .ok result)
      else
        ({ s with entries := s.entries ++ [(k, result)], misses := s.misses + 1 }, .ok result)

/-- The unbounded wrapper body after key construction (source lines
144–153): plain lookup, then compute-store-count on a miss. -/
def unboundedStep {K V : Type} (keq : K → K → Bool)
    (s : CState K V) (k : K) (comp : Except PyErr V) :
    CState K V × Except PyErr V :=
  match lookupEntry keq s.entries k with
  | some e => ({ s with hits := s.hits + 1 }, .ok e.2)
  | none =>
    match comp with
    | .error err => (s, .error err)
    | .ok result =>
      ({ s with entries := s.entries ++ [(k, result)], misses := s.misses + 1 }, .ok result)

/-- The disabled wrapper (source lines 133–138): no key is ever built, the
computation always runs, and `misses` is incremented only after it returns
successfully. -/
def disabledCall {K V : Type} (s : CState K V) (comp : Except PyErr V) :
    CState K V × Except PyErr V :=
  match comp with
  | .error e => (s, .error e)
  | .ok result => ({ s with misses := s.misses + 1 }, .ok result)

/-- The bounded wrapper's key step (source line 159):
`key = make_key(args, kwds, typed) if kwds or typed else args`. -/
def boundedKeyStep (args : List PyVal) (kwds : List (String × PyVal)) (typed : Bool) :
    Except PyErr CacheKey :=
  if !kwds.isEmpty || typed then mkKey args kwds typed else .ok (.argsTuple args)

/-- The unbounded wrapper: `_make_key` (which may raise `TypeError` on an
unhashable component while hashing the `_HashedSeq`), then the body. -/
def unboundedCall (typed : Bool) (s : CState CacheKey PyVal)
    (args : List PyVal) (kwds : List (String × PyVal)) (comp : Except PyErr PyVal) :
    CState CacheKey PyVal × Except PyErr PyVal :=
  match mkKey args kwds typed with
  | .error e => (s, .error e)
  | .ok key => unboundedStep keyEq s key comp

/-- The bounded wrapper: the key step, then `cache_get(key)` hashes the key
(raising `TypeError` inside the lock for an unhashable raw argument tuple),
then the body. -/
def boundedCall (maxsize : Int) (typed : Bool) (s : CState CacheKey PyVal)
    (args : List PyVal) (kwds : List (String × PyVal)) (comp : Except PyErr PyVal) :
    CState CacheKey PyVal × Except PyErr PyVal :=
  match boundedKeyStep args kwds typed with
  | .error e => (s, .error e)
  | .ok key =>
    if keyHashable key then boundedStep keyEq maxsize s key comp
    else (s, .error .typeError)

/-- One call of the memoized function: its arguments and what the wrapped
computation would return if invoked on them. -/
structure Call where
  args : List PyVal
  kwds : List (String × PyVal)
  comp : Except PyErr PyVal

/-- The mode dispatch of `lru_cache` (source lines 131, 140, 155):
`maxsize == 0` disables caching, `maxsize is None` selects the unbounded
wrapper, any other integer (validity never checked) selects the bounded
wrapper. -/
def lruCall (maxsize : Option Int) (typed : Bool) (s : CState CacheKey PyVal)
    (c : Call) : CState CacheKey PyVal × Except PyErr PyVal :=
  match maxsize with
  | some m => if m = 0 then disabledCall s c.comp else boundedCall m typed s c.args c.kwds c.comp
  | none => unboundedCall typed s c.args c.kwds c.comp

/-- Run a sequence of sequential calls, keeping the final state. -/
def runCalls (maxsize : Option Int) (typed : Bool)
    (s : CState CacheKey PyVal) : List Call → CState CacheKey PyVal
  | [] => s
  | c :: cs => runCalls maxsize typed (lruCall maxsize typed s c).1 cs

/-- All calls of the sequence complete without an exception. -/
def callsOk (maxsize : Option Int) (typed : Bool)
    (s : CState CacheKey PyVal) : List Call → Bool
  | [] => true
  | c :: cs =>
    match lruCall maxsize typed s c with
    | (s', .ok _) => callsOk maxsize typed s' cs
    | (_, .error _) => false

/-- The `CacheInfo` named tuple `(hits, misses, maxsize, currsize)`. -/
structure CacheInfo where
  hits : Nat
  misses : Nat
  maxsize : Option Int
  currsize : Nat
deriving DecidableEq, Repr

/-- `cache_info()`: a snapshot of the statistics (source lines 204–210). -/
def cacheInfo (maxsize : Option Int) (s : CState CacheKey PyVal) : CacheInfo :=
  ⟨s.hits, s.misses, maxsize, s.entries.length⟩

/-- `cache_clear()` (source lines 212–220): empty the dictionary, reset the
sentinel to point at itself (an empty recency cycle), zero the statistics. -/
def cacheClear {K V : Type} (_s : CState K V) : CState K V := ⟨[], 0, 0⟩

/-- A whole cache object: the configuration captured by the decorator's
closure (never reassigned by any operation) plus the mutable state. -/
structure LruCache where
  maxsize : Option Int
  typed : Bool
  st : CState CacheKey PyVal

/-- `lru_cache(maxsize, typed)` applied to a function: builds the closure
state unconditionally — no validation of `maxsize` happens at configuration
time, so construction never fails (hence the `Except` is always `.ok`). -/
def lruConfigure (maxsize : Option Int) (typed : Bool) : Except PyErr LruCache :=
  .ok ⟨maxsize, typed, initState⟩

/-- `cache_clear()` on the whole cache object: only the mutable state is
touched; the configuration fields are left as they are. -/
def lruCacheClear (c : LruCache) : LruCache :=
  { c with st := cacheClear c.st }

/-! ## Basic lemmas about the wrappers -/

/-- A successful `extract` removes exactly one entry. -/
theorem extract_some_length {K V : Type} (keq : K → K → Bool) (k : K) :
    ∀ (l : List (K × V)) (e : K × V) (rest : List (K × V)),
      extract keq k l = some (e, rest) → rest.length + 1 = l.length := by
  intro l
  induction l with
  | nil => intro e rest h; simp [extract] at h
  | cons a tl ih =>
    intro e rest h
    by_cases hk : keq a.1 k
    · simp [extract, hk] at h
      simp [← h.2]
    · simp only [extract, hk, if_neg, Bool.false_eq_true, ite_false] at h
      rcases hrec : extract keq k tl (V := V) with _ | ⟨f, rest'⟩
      · rw [hrec] at h; simp at h
      · rw [hrec] at h
        simp at h
        have := ih f rest' hrec
        rw [← h.2]
        simp only [List.length_cons]
        omega

/-- `extract` fails exactly when the dictionary lookup fails. -/
theorem extract_none_iff {K V : Type} (keq : K → K → Bool) (k : K) (l : List (K × V)) :
    extract keq k l = none ↔ lookupEntry keq l k = none := by
  induction l with
  | nil => simp [extract, lookupEntry]
  | cons a tl ih =>
    by_cases hk : keq a.1 k
    · simp [extract, lookupEntry, List.find?, hk]
    · simp only [extract, lookupEntry, List.find?, hk, Bool.false_eq_true, ite_false] at *
      rcases hrec : extract keq k tl (V := V) with _ | ⟨f, rest'⟩
      · simp only [hrec, true_iff] at ih
        simp [ih]
      · simp only [hrec] at ih
        simp only [reduceCtorEq, false_iff] at ih ⊢
        exact ih

/-- Each successfully completing call increments exactly one of the two
statistics counters (disabled wrapper). -/
theorem disabledCall_ok_counts {K V : Type} (s s' : CState K V)
    (comp : Except PyErr V) (r : V) (h : disabledCall s comp = (s', .ok r)) :
    s'.hits + s'.misses = s.hits + s.misses + 1 ∧ s'.hits = s.hits := by
  cases comp with
  | error e => simp [disabledCall] at h
  | ok v => simp [disabledCall] at h; simp [← h.1]; omega

/-- Each successfully completing call increments exactly one of the two
statistics counters (unbounded wrapper body). -/
theorem unboundedStep_ok_counts {K V : Type} (keq : K → K → Bool)
    (s s' : CState K V) (k : K) (comp : Except PyErr V) (r : V)
    (h : unboundedStep keq s k comp = (s', .ok r)) :
    s'.hits + s'.misses = s.hits + s.misses + 1 := by
  unfold unboundedStep at h
  rcases hl : lookupEntry keq s.entries k with _ | e <;> rw [hl] at h
  · cases comp with
    | error e => simp at h
    | ok v => simp at h; simp [← h.1]; omega
  · simp at h; simp [← h.1]; omega

/-- Each successfully completing call increments exactly one of the two
statistics counters (bounded wrapper body). -/
theorem boundedStep_ok_counts {K V : Type} (keq : K → K → Bool) (m : Int)
    (s s' : CState K V) (k : K) (comp : Except PyErr V) (r : V)
    (h : boundedStep keq m s k comp = (s', .ok r)) :
    s'.hits + s'.misses = s.hits + s.misses + 1 := by
  unfold boundedStep at h
  split at h
  · simp at h; simp [← h.1]; omega
  · split at h
    · simp at h
    · split at h
      · simp at h; simp [← h.1]; omega
      · split at h
        · split at h
          · simp at h
          · simp at h; simp [← h.1]; omega
        · simp at h; simp [← h.1]; omega

/-- Reduction of the unbounded wrapper when key construction succeeds. -/
theorem unboundedCall_keyOk (typed : Bool) (s : CState CacheKey PyVal)
    (args : List PyVal) (kwds : List (String × PyVal)) (comp : Except PyErr PyVal)
    (key : CacheKey) (hk : mkKey args kwds typed = .ok key) :
    unboundedCall typed s args kwds comp = unboundedStep keyEq s key comp := by
  unfold unboundedCall; rw [hk]

/-- Reduction of the unbounded wrapper when key construction fails. -/
theorem unboundedCall_keyErr (typed : Bool) (s : CState CacheKey PyVal)
    (args : List PyVal) (kwds : List (String × PyVal)) (comp : Except PyErr PyVal)
    (e : PyErr) (hk : mkKey args kwds typed = .error e) :
    unboundedCall typed s args kwds comp = (s, .error e) := by
  unfold unboundedCall; rw [hk]

/-- Reduction of the bounded wrapper when the key step succeeds. -/
theorem boundedCall_keyOk (m : Int) (typed : Bool) (s : CState CacheKey PyVal)
    (args : List PyVal) (kwds : List (String × PyVal)) (comp : Except PyErr PyVal)
    (key : CacheKey) (hk : boundedKeyStep args kwds typed = .ok key) :
    boundedCall m typed s args kwds comp =
      if keyHashable key = true then boundedStep keyEq m s key comp
      else (s, .error .typeError) := by
  unfold boundedCall; rw [hk]

/-- Reduction of the bounded wrapper when the key step fails. -/
theorem boundedCall_keyErr (m : Int) (typed : Bool) (s : CState CacheKey PyVal)
    (args : List PyVal) (kwds : List (String × PyVal)) (comp : Except PyErr PyVal)
    (e : PyErr) (hk : boundedKeyStep args kwds typed = .error e) :
    boundedCall m typed s args kwds comp = (s, .error e) := by
  unfold boundedCall; rw [hk]

/-- Each successfully completing call, in every mode, increments exactly one
of the two statistics counters. -/
theorem lruCall_ok_counts (maxsize : Option Int) (typed : Bool)
    (s s' : CState CacheKey PyVal) (c : Call) (r : PyVal)
    (h : lruCall maxsize typed s c = (s', .ok r)) :
    s'.hits + s'.misses = s.hits + s.misses + 1 := by
  rcases maxsize with _ | m <;> simp only [lruCall] at h
  · rcases hk : mkKey c.args c.kwds typed with e | key
    · rw [unboundedCall_keyErr typed s c.args c.kwds c.comp e hk] at h
      simp at h
    · rw [unboundedCall_keyOk typed s c.args c.kwds c.comp key hk] at h
      exact unboundedStep_ok_counts keyEq s s' key c.comp r h
  · by_cases hm : m = 0
    · rw [if_pos hm] at h
      exact (disabledCall_ok_counts s s' c.comp r h).1
    · rw [if_neg hm] at h
      rcases hk : boundedKeyStep c.args c.kwds typed with e | key
      · rw [boundedCall_keyErr m typed s c.args c.kwds c.comp e hk] at h
        simp at h
      · rw [boundedCall_keyOk m typed s c.args c.kwds c.comp key hk] at h
        by_cases hh : keyHashable key = true
        · rw [if_pos hh] at h
          exact boundedStep_ok_counts keyEq m s s' key c.comp r h
        · rw [if_neg hh] at h
          simp at h

/-- `hits + misses` over a successfully completing call sequence grows by
the number of calls, from any starting state. -/
theorem runCalls_counts (maxsize : Option Int) (typed : Bool) :
    ∀ (ts : List Call) (s : CState CacheKey PyVal),
      callsOk maxsize typed s ts = true →
      (runCalls maxsize typed s ts).hits + (runCalls maxsize typed s ts).misses =
        s.hits + s.misses + ts.length := by
  intro ts
  induction ts with
  | nil => intro s _; simp [runCalls]
  | cons c cs ih =>
    intro s h
    rcases hc : lruCall maxsize typed s c with ⟨s', res⟩
    rcases res with e | r
    · exfalso
      simp [callsOk, hc] at h
    · simp only [callsOk, hc] at h
      simp only [runCalls, hc]
      have h1 := lruCall_ok_counts maxsize typed s s' c r hc
      have h2 := ih s' h
      simp only [List.length_cons]
      omega

/-- The disabled wrapper never touches the dictionary, the recency list, or
the hit counter, from any starting state. -/
theorem disabled_run_frame (typed : Bool) :
    ∀ (ts : List Call) (s : CState CacheKey PyVal),
      (runCalls (some 0) typed s ts).entries = s.entries ∧
      (runCalls (some 0) typed s ts).hits = s.hits := by
  intro ts
  induction ts with
  | nil => intro s; simp [runCalls]
  | cons c cs ih =>
    intro s
    rcases hc : c.comp with e | v <;>
      simp only [runCalls, lruCall, if_pos rfl, disabledCall, hc] <;> exact ih _

/-- The disabled wrapper counts every successfully completing call as a
miss, from any starting state. -/
theorem disabled_run_misses (typed : Bool) :
    ∀ (ts : List Call) (s : CState CacheKey PyVal),
      callsOk (some 0) typed s ts = true →
      (runCalls (some 0) typed s ts).misses = s.misses + ts.length := by
  intro ts
  induction ts with
  | nil => intro s _; simp [runCalls]
  | cons c cs ih =>
    intro s h
    rcases hc : c.comp with e | v
    · exfalso
      simp [callsOk, lruCall, disabledCall, hc] at h
    · simp only [callsOk, lruCall, if_pos rfl, disabledCall, hc] at h
      have h2 := ih ({ s with misses := s.misses + 1 }) h
      have h3 : (runCalls (some 0) typed s (c :: cs)).misses =
          (runCalls (some 0) typed ({ s with misses := s.misses + 1 }) cs).misses := by
        simp [runCalls, lruCall, disabledCall, hc]
      rw [h3, h2]
      simp only [List.length_cons]
      omega

/-! ## C5: hits + misses equals the number of calls -/

/-- C5: for every mode and every sequence of calls after the last
`Clear()` (a cleared cache is exactly the fresh `initState`), with each
call's wrapped computation completing successfully, `hits + misses` equals
the total number of calls made; in disabled mode (`maxSize = 0`) `misses`
equals the total number of calls and `hits` is 0. -/
theorem claim5_hits_plus_misses (maxsize : Option Int) (typed : Bool)
    (ts : List Call) (h : callsOk maxsize typed initState ts = true) :
    (runCalls maxsize typed initState ts).hits +
      (runCalls maxsize typed initState ts).misses = ts.length ∧
    (maxsize = some 0 →
      (runCalls maxsize typed initState ts).misses = ts.length ∧
      (runCalls maxsize typed initState ts).hits = 0) := by
  constructor
  · have := runCalls_counts maxsize typed ts initState h
    simpa [initState] using this
  · rintro rfl
    refine ⟨?_, (disabled_run_frame typed ts initState).2⟩
    have := disabled_run_misses typed ts initState h
    simpa [initState] using this

/-- Witness for C5 at a concrete two-call sequence (a miss then a hit in
unbounded mode). -/
theorem claim5_witness :
    (runCalls none false initState
        [⟨[.vint 3], [], .ok (.vint 9)⟩, ⟨[.vint 3], [], .ok (.vint 9)⟩]).hits +
      (runCalls none false initState
        [⟨[.vint 3], [], .ok (.vint 9)⟩, ⟨[.vint 3], [], .ok (.vint 9)⟩]).misses = 2 :=
  (claim5_hits_plus_misses none false
    [⟨[.vint 3], [], .ok (.vint 9)⟩, ⟨[.vint 3], [], .ok (.vint 9)⟩] (by rfl)).1

/-! ## C6: disabled mode -/

/-- C6: with `maxSize = 0` (disabled mode), every call invokes the wrapped
computation and returns its value, nothing is ever stored (the `currsize`
reported by `cache_info` is always 0, whatever the calls did), every
successfully completing call increments `misses` only, and `hits` remains 0
forever. -/
theorem claim6_disabled_mode (typed : Bool) (ts : List Call) :
    (cacheInfo (some 0) (runCalls (some 0) typed initState ts)).currsize = 0 ∧
    (runCalls (some 0) typed initState ts).entries = [] ∧
    (runCalls (some 0) typed initState ts).hits = 0 ∧
    (callsOk (some 0) typed initState ts = true →
      (runCalls (some 0) typed initState ts).misses = ts.length) ∧
    (∀ (s : CState CacheKey PyVal) (c : Call) (v : PyVal), c.comp = .ok v →
      lruCall (some 0) typed s c = ({ s with misses := s.misses + 1 }, .ok v)) := by
  have hframe := disabled_run_frame typed ts initState
  refine ⟨?_, ?_, ?_, ?_, ?_⟩
  · simp only [cacheInfo]
    rw [hframe.1]
    rfl
  · rw [hframe.1]
    rfl
  · rw [hframe.2]
    rfl
  · intro h
    rw [disabled_run_misses typed ts initState h]
    simp [initState]
  · intro s c v hv
    simp [lruCall, disabledCall, hv]

/-- Witness for C6 at a concrete three-call sequence that repeats one
argument (in disabled mode even the repeat is a miss). -/
theorem claim6_witness :
    (cacheInfo (some 0)
      (runCalls (some 0) false initState
        [⟨[.vint 1], [], .ok (.vint 2)⟩, ⟨[.vint 1], [], .ok (.vint 2)⟩])).currsize = 0 ∧
    (runCalls (some 0) false initState
        [⟨[.vint 1], [], .ok (.vint 2)⟩, ⟨[.vint 1], [], .ok (.vint 2)⟩]).misses = 2 := by
  have h := claim6_disabled_mode false
      [⟨[.vint 1], [], .ok (.vint 2)⟩, ⟨[.vint 1], [], .ok (.vint 2)⟩]
  exact ⟨h.1, h.2.2.2.1 (by rfl)⟩

/-! ## C7: cache_clear -/

/-- Whether the `maxSize` configuration is one the spec admits: `None`
(unbounded) or a non-negative integer. -/
def validMaxsize : Option Int → Bool
  | none => true
  | some m => decide (0 ≤ m)

/-- All of a call's argument values (positional, and keyword values) are
hashable. -/
def callHashable (c : Call) : Bool :=
  c.args.all pyHashable && c.kwds.all (fun kv => pyHashable kv.2)

/-- The flattened keyword items are all hashable exactly when the keyword
values are (names are strings, hence hashable). -/
theorem kwdFlat_all_hashable (items : List (String × PyVal)) :
    (kwdFlat items).all keyElemHashable = items.all (fun kv => pyHashable kv.2) := by
  induction items with
  | nil => rfl
  | cons a tl ih => simp [kwdFlat, keyElemHashable, pyHashable, List.all_cons, ih]

/-- Permutations agree on `all`. -/
theorem perm_all_eq {α : Type} (p : α → Bool) {l₁ l₂ : List α} (h : l₁.Perm l₂) :
    l₁.all p = l₂.all p := by
  induction h with
  | nil => rfl
  | cons x _ ih => simp only [List.all_cons, ih]
  | swap x y l => simp only [List.all_cons, ← Bool.and_assoc, Bool.and_comm (p y) (p x)]
  | trans _ _ ih1 ih2 => rw [ih1, ih2]

/-- Sorting the keyword items does not change which values occur. -/
theorem sortKwds_all (kwds : List (String × PyVal)) (p : String × PyVal → Bool) :
    (sortKwds kwds).all p = kwds.all p :=
  perm_all_eq p (List.perm_insertionSort _ kwds)

/-- A value of one of the fast-path types is hashable. -/
theorem fastType_hashable (v : PyVal) (h : fastType (pyType v) = true) :
    pyHashable v = true := by
  cases v <;> simp [fastType, pyType, pyHashable] at h ⊢

/-- The typed augmentation appends only (hashable) type objects. -/
theorem typs_all_hashable {α : Type} (f : α → PyType) (l : List α) :
    (l.map (fun v => KeyElem.typ (f v))).all keyElemHashable = true := by
  induction l with
  | nil => rfl
  | cons a tl ih => simp [keyElemHashable, ih]

/-- Hashability of the untyped composed key sequence is hashability of the
positional arguments and the keyword values. -/
theorem keyBase_all_hashable (args : List PyVal) (kwds : List (String × PyVal)) :
    (keyBase args kwds).all keyElemHashable
      = (args.all pyHashable && kwds.all fun kv => pyHashable kv.2) := by
  have hargs : ∀ l : List PyVal,
      (l.map KeyElem.val).all keyElemHashable = l.all pyHashable := by
    intro l
    induction l with
    | nil => rfl
    | cons a tl ih => simp [keyElemHashable, ih]
  by_cases hk : kwds.isEmpty
  · have : kwds = [] := by cases kwds <;> simp_all
    simp [keyBase, hk, hargs, this]
  · simp [keyBase, hk, hargs, keyElemHashable, kwdFlat_all_hashable, sortKwds_all]

/-- The typed key sequence is hashable under the same condition (the typed
tail consists of type objects only). -/
theorem typedKey_all_hashable (args : List PyVal) (kwds : List (String × PyVal)) :
    (keyBase args kwds ++ typedTail args kwds).all keyElemHashable
      = (args.all pyHashable && kwds.all fun kv => pyHashable kv.2) := by
  rw [List.all_append, keyBase_all_hashable]
  have h2 : (typedTail args kwds).all keyElemHashable = true := by
    simp only [typedTail, List.all_append, typs_all_hashable, Bool.true_and]
    split
    · rfl
    · exact typs_all_hashable _ _
  rw [h2, Bool.and_true]

/-- When every argument value is hashable, `_make_key` succeeds and its key
hashes at lookup time. -/
theorem mkKey_ok_of_hashable (args : List PyVal) (kwds : List (String × PyVal))
    (typed : Bool)
    (h : (args.all pyHashable && kwds.all fun kv => pyHashable kv.2) = true) :
    ∃ key, mkKey args kwds typed = .ok key ∧ keyHashable key = true := by
  cases typed
  · have hcond := keyBase_all_hashable args kwds
    simp only [mkKey, Bool.false_eq_true, if_false, mkKeyUntyped]
    split
    · next v heq =>
      rw [heq] at hcond
      simp only [List.all_cons, List.all_nil, keyElemHashable, Bool.and_true] at hcond
      have hv : pyHashable v = true := by rw [hcond]; exact h
      by_cases hf : fastType (pyType v) = true
      · refine ⟨.bare v, by simp [hf], ?_⟩
        simpa [keyHashable] using hv
      · refine ⟨.hashedSeq (keyBase args kwds), ?_, rfl⟩
        rw [heq]
        simp [hf, mkHashedSeq, keyElemHashable, hv]
    · refine ⟨.hashedSeq (keyBase args kwds), ?_, rfl⟩
      simp only [mkHashedSeq]
      rw [hcond, h]
      rfl
  · have hcond := typedKey_all_hashable args kwds
    refine ⟨.hashedSeq (keyBase args kwds ++ typedTail args kwds), ?_, rfl⟩
    simp only [mkKey, if_true, mkHashedSeq]
    rw [hcond, h]
    rfl

/-- When some argument value (or nested component) is unhashable, hashing
the composed `_HashedSeq` raises `TypeError` inside `_make_key`. -/
theorem mkKey_error_of_unhashable (args : List PyVal) (kwds : List (String × PyVal))
    (typed : Bool)
    (h : (args.all pyHashable && kwds.all fun kv => pyHashable kv.2) = false) :
    mkKey args kwds typed = .error .typeError := by
  cases typed
  · have hcond := keyBase_all_hashable args kwds
    simp only [mkKey, Bool.false_eq_true, if_false, mkKeyUntyped]
    split
    · next v heq =>
      rw [heq] at hcond
      simp only [List.all_cons, List.all_nil, keyElemHashable, Bool.and_true] at hcond
      have hv : pyHashable v = false := by rw [hcond]; exact h
      have hf : fastType (pyType v) = false := by
        cases hft : fastType (pyType v)
        · rfl
        · rw [fastType_hashable v hft] at hv; exact absurd hv (by simp)
      rw [heq]
      simp [hf, mkHashedSeq, keyElemHashable, hv]
    · simp only [mkHashedSeq]
      rw [hcond, h]
      rfl
  · have hcond := typedKey_all_hashable args kwds
    simp only [mkKey, if_true, mkHashedSeq]
    rw [hcond, h]
    rfl

/-- The bounded wrapper's key step never fails when the raw-argument-tuple
path is taken, and fails exactly as `_make_key` does otherwise. -/
theorem boundedKeyStep_eq (args : List PyVal) (kwds : List (String × PyVal))
    (typed : Bool) :
    boundedKeyStep args kwds typed =
      if kwds.isEmpty && !typed then .ok (.argsTuple args) else mkKey args kwds typed := by
  unfold boundedKeyStep
  cases typed <;> by_cases hk : kwds.isEmpty <;> simp [hk]

/-- `pyListHashable` is `all pyHashable`. -/
theorem pyListHashable_eq_all (l : List PyVal) :
    pyListHashable l = l.all pyHashable := by
  induction l with
  | nil => rfl
  | cons a tl ih => simp [pyListHashable, List.all_cons, ih]

/-- A hashable call gives the bounded wrapper a key step that succeeds with
a key that hashes at lookup time. -/
theorem boundedKeyStep_ok_of_hashable (args : List PyVal)
    (kwds : List (String × PyVal)) (typed : Bool)
    (h : (args.all pyHashable && kwds.all fun kv => pyHashable kv.2) = true) :
    ∃ key, boundedKeyStep args kwds typed = .ok key ∧ keyHashable key = true := by
  rw [boundedKeyStep_eq]
  by_cases hc : (kwds.isEmpty && !typed) = true
  · refine ⟨.argsTuple args, by simp [hc], ?_⟩
    simp only [keyHashable, pyListHashable_eq_all]
    simp only [Bool.and_eq_true] at h
    exact h.1
  · obtain ⟨key, hk, hkh⟩ := mkKey_ok_of_hashable args kwds typed h
    exact ⟨key, by simp [hc, hk], hkh⟩

/-- Any call on an empty cache state is a fresh miss, for every valid
configuration, provided its arguments are hashable and its computation
completes. -/
theorem freshCall_is_miss (msz : Option Int) (typd : Bool) (call : Call) (v : PyVal)
    (hvalid : validMaxsize msz = true) (hok : call.comp = .ok v)
    (hhash : callHashable call = true) :
    (lruCall msz typd initState call).1.hits = 0 ∧
    (lruCall msz typd initState call).1.misses = 1 ∧
    (lruCall msz typd initState call).2 = .ok v := by
  have hch : (call.args.all pyHashable && call.kwds.all fun kv => pyHashable kv.2) = true :=
    hhash
  rcases msz with _ | m
  · obtain ⟨key, hkey, _⟩ := mkKey_ok_of_hashable call.args call.kwds typd hch
    simp only [lruCall]
    rw [unboundedCall_keyOk typd _ call.args call.kwds call.comp key hkey]
    simp [unboundedStep, initState, lookupEntry, hok]
  · by_cases hm : m = 0
    · subst hm
      simp [lruCall, disabledCall, hok, initState]
    · have hm1 : 1 ≤ m := by
        simp only [validMaxsize, decide_eq_true_eq] at hvalid
        omega
      simp only [lruCall, if_neg hm]
      obtain ⟨key, hbk, hkh⟩ := boundedKeyStep_ok_of_hashable call.args call.kwds typd hch
      rw [boundedCall_keyOk m typd _ call.args call.kwds call.comp key hbk, if_pos hkh]
      have hle : ¬ (m ≤ 0) := by omega
      simp [boundedStep, initState, extract, lookupEntry, hok, hle]

/-! ## C7: cache_clear resets everything but the configuration -/

/-- C7: `cache_clear` resets `hits`, `misses` and `currentSize` to 0 and
empties the recency structure (the empty association list is the model of
the sentinel pointing to itself), leaves the `maxSize` and `typed`
configuration untouched, and afterwards any (valid-configuration, hashable,
successfully computing) call is a fresh miss: the hit counter stays 0, the
miss counter becomes 1, and the wrapped computation's value is returned. -/
theorem claim7_clear (c : LruCache) :
    lruCacheClear c = ⟨c.maxsize, c.typed, ⟨[], 0, 0⟩⟩ ∧
    cacheInfo (lruCacheClear c).maxsize (lruCacheClear c).st =
      ⟨0, 0, c.maxsize, 0⟩ ∧
    (∀ (call : Call) (v : PyVal),
      validMaxsize c.maxsize = true → call.comp = .ok v → callHashable call = true →
      (lruCall c.maxsize c.typed (cacheClear c.st) call).1.hits = 0 ∧
      (lruCall c.maxsize c.typed (cacheClear c.st) call).1.misses = 1 ∧
      (lruCall c.maxsize c.typed (cacheClear c.st) call).2 = .ok v) :=
  ⟨rfl, rfl, fun call v h1 h2 h3 => freshCall_is_miss c.maxsize c.typed call v h1 h2 h3⟩

/-- Witness for C7: clearing a cache that holds an entry and two counted
calls, then repeating the previously cached call, yields a fresh miss. -/
theorem claim7_witness :
    lruCacheClear ⟨some 10, false, ⟨[(.argsTuple [.vint 1], .vint 5)], 1, 1⟩⟩ =
      ⟨some 10, false, ⟨[], 0, 0⟩⟩ ∧
    (lruCall (some 10) false
        (cacheClear (⟨[(.argsTuple [.vint 1], .vint 5)], 1, 1⟩ : CState CacheKey PyVal))
        ⟨[.vint 1], [], .ok (.vint 5)⟩).1.misses = 1 := by
  have h := claim7_clear ⟨some 10, false, ⟨[(.argsTuple [.vint 1], .vint 5)], 1, 1⟩⟩
  exact ⟨h.1, (h.2.2 ⟨[.vint 1], [], .ok (.vint 5)⟩ (.vint 5) (by rfl) (by rfl) (by rfl)).2.1⟩

/-! ## C9: a raising wrapped computation leaves the cache untouched -/

/-- C9: in every mode, when the wrapped computation is actually invoked
(disabled mode: always; caching modes: the key was built, hashed, and its
lookup missed) and it raises, the exception propagates to the caller and
the whole cache state — entries, recency order, `hits` and `misses` — is
exactly what it was before the call. -/
theorem claim9_exception_frame :
    (∀ (typed : Bool) (s : CState CacheKey PyVal) (c : Call) (e : PyErr),
      c.comp = .error e →
      lruCall (some 0) typed s c = (s, .error e)) ∧
    (∀ (typed : Bool) (s : CState CacheKey PyVal) (c : Call) (e : PyErr) (key : CacheKey),
      c.comp = .error e → mkKey c.args c.kwds typed = .ok key →
      lookupEntry keyEq s.entries key = none →
      lruCall none typed s c = (s, .error e)) ∧
    (∀ (m : Int) (typed : Bool) (s : CState CacheKey PyVal) (c : Call) (e : PyErr)
        (key : CacheKey),
      m ≠ 0 → c.comp = .error e → boundedKeyStep c.args c.kwds typed = .ok key →
      keyHashable key = true → extract keyEq key s.entries = none →
      lruCall (some m) typed s c = (s, .error e)) := by
  refine ⟨?_, ?_, ?_⟩
  · intro typed s c e hc
    simp [lruCall, disabledCall, hc]
  · intro typed s c e key hc hk hmiss
    simp only [lruCall]
    rw [unboundedCall_keyOk typed s c.args c.kwds c.comp key hk]
    simp [unboundedStep, hmiss, hc]
  · intro m typed s c e key hm hc hk hkh hmiss
    simp only [lruCall, if_neg hm]
    rw [boundedCall_keyOk m typed s c.args c.kwds c.comp key hk, if_pos hkh]
    simp [boundedStep, hmiss, hc]

/-- Witness for C9: a bounded cache holding one entry, called with a fresh
key whose computation raises — state is returned unchanged. -/
theorem claim9_witness :
    lruCall (some 5) false (⟨[(.argsTuple [.vint 1], .vint 5)], 3, 4⟩ : CState CacheKey PyVal)
        ⟨[.vint 2], [], .error (.userError 7)⟩ =
      (⟨[(.argsTuple [.vint 1], .vint 5)], 3, 4⟩, .error (.userError 7)) :=
  claim9_exception_frame.2.2 5 false ⟨[(.argsTuple [.vint 1], .vint 5)], 3, 4⟩
    ⟨[.vint 2], [], .error (.userError 7)⟩ (.userError 7) (.argsTuple [.vint 2])
    (by decide) (by rfl) (by rfl) (by rfl) (by rfl)

/-! ## C3: negative maxSize is not validated at configuration time -/

/-- Counterexample to C3: configuring with `maxSize = -1` succeeds (the
decorator performs no validation whatsoever), and a call is then attempted
on the resulting cache — it reaches the eviction branch on an empty cache
and fails with `KeyError` at call time, not at configuration time. -/
theorem claim3_counterexample :
    lruConfigure (some (-1)) false = .ok ⟨some (-1), false, initState⟩ ∧
    lruCall (some (-1)) false initState ⟨[.vint 1], [], .ok (.vint 5)⟩ =
      (initState, .error .keyError) := by
  exact ⟨rfl, rfl⟩

/-- C3 amended: a negative `maxSize` is accepted silently at configuration
time — the cache object is built as usual — and calls on it are attempted:
every call on the (forever empty) cache leaves the state unchanged and
raises; in particular a call with hashable arguments whose computation
completes runs the computation and then raises `KeyError` from
`del cache[oldkey]` in the eviction branch. -/
theorem claim3_amended (m : Int) (hm : m < 0) (typed : Bool) (c : Call) :
    lruConfigure (some m) typed = .ok ⟨some m, typed, initState⟩ ∧
    (lruCall (some m) typed initState c).1 = initState ∧
    (∃ e, (lruCall (some m) typed initState c).2 = .error e) ∧
    (∀ (v : PyVal), c.comp = .ok v → callHashable c = true →
      (lruCall (some m) typed initState c).2 = .error .keyError) := by
  have hm0 : m ≠ 0 := by omega
  have hge : ((0 : Nat) : Int) ≥ m := by omega
  have step : ∀ (key : CacheKey), keyHashable key = true →
      boundedStep keyEq m initState key c.comp = (initState, .error (match c.comp with
        | .error e => e
        | .ok _ => .keyError)) := by
    intro key _
    rcases hc : c.comp with e | v <;>
      simp [boundedStep, initState, extract, lookupEntry, hc, hge,
        show m ≤ 0 by omega]
  have main : (lruCall (some m) typed initState c).1 = initState ∧
      ∃ e, (lruCall (some m) typed initState c).2 = .error e := by
    simp only [lruCall, if_neg hm0]
    rcases hbk : boundedKeyStep c.args c.kwds typed with e | key
    · rw [boundedCall_keyErr m typed initState c.args c.kwds c.comp e hbk]
      exact ⟨rfl, e, rfl⟩
    · rw [boundedCall_keyOk m typed initState c.args c.kwds c.comp key hbk]
      by_cases hkh : keyHashable key = true
      · rw [if_pos hkh, step key hkh]
        rcases c.comp with e | v
        · exact ⟨rfl, _, rfl⟩
        · exact ⟨rfl, _, rfl⟩
      · rw [if_neg hkh]
        exact ⟨rfl, _, rfl⟩
  refine ⟨rfl, main.1, main.2, ?_⟩
  intro v hv hhash
  obtain ⟨key, hbk, hkh⟩ :=
    boundedKeyStep_ok_of_hashable c.args c.kwds typed hhash
  simp only [lruCall, if_neg hm0]
  rw [boundedCall_keyOk m typed initState c.args c.kwds c.comp key hbk, if_pos hkh,
    step key hkh, hv]

/-- Witness for the amended C3 at `maxSize = -1`. -/
theorem claim3_witness :
    lruConfigure (some (-1)) true = .ok ⟨some (-1), true, initState⟩ ∧
    (lruCall (some (-1)) true initState ⟨[.vint 2], [], .ok (.vint 4)⟩).2 =
      .error .keyError := by
  have h := claim3_amended (-1) (by norm_num) true ⟨[.vint 2], [], .ok (.vint 4)⟩
  exact ⟨h.1, h.2.2.2 (.vint 4) (by rfl) (by rfl)⟩

/-! ## C4: unhashable arguments -/

/-- Counterexample to C4: in disabled mode (`maxSize = 0`) no key is ever
constructed, so a call with an unhashable (list) argument does not fail at
all — the wrapped computation is invoked, its value returned, and `misses`
is incremented, contradicting the claim that in every mode such a call
fails before the computation with no statistics change. -/
theorem claim4_counterexample :
    pyHashable (.vlist []) = false ∧
    lruCall (some 0) false initState ⟨[.vlist []], [], .ok (.vint 7)⟩ =
      (⟨[], 0, 1⟩, .ok (.vint 7)) := by
  exact ⟨rfl, rfl⟩

/-- C4 amended: in the unbounded and bounded modes, a call with an
unhashable argument (or unhashable nested component, or unhashable keyword
value) raises `TypeError` when the key is hashed — before the wrapped
computation is invoked, so the result does not depend on `comp` —, the
error propagates to the caller, and the state (both counters included) is
unchanged.  In disabled mode no key is built: the computation is invoked
normally and, when it completes, `misses` is incremented. -/
theorem claim4_amended (typed : Bool) (s : CState CacheKey PyVal)
    (args : List PyVal) (kwds : List (String × PyVal)) (comp : Except PyErr PyVal)
    (h : (args.all pyHashable && kwds.all fun kv => pyHashable kv.2) = false) :
    unboundedCall typed s args kwds comp = (s, .error .typeError) ∧
    (∀ m : Int, boundedCall m typed s args kwds comp = (s, .error .typeError)) ∧
    (∀ v, comp = .ok v → disabledCall s comp = ({ s with misses := s.misses + 1 }, .ok v)) := by
  refine ⟨?_, ?_, ?_⟩
  · exact unboundedCall_keyErr typed s args kwds comp .typeError
      (mkKey_error_of_unhashable args kwds typed h)
  · intro m
    by_cases hc : (kwds.isEmpty && !typed) = true
    · have hkwds : kwds.all (fun kv => pyHashable kv.2) = true := by
        simp only [Bool.and_eq_true] at hc
        have : kwds = [] := by
          cases kwds with
          | nil => rfl
          | cons a tl => simp [List.isEmpty] at hc
        simp [this]
      have hargs : args.all pyHashable = false := by
        rcases hh : args.all pyHashable
        · rfl
        · rw [hh, hkwds] at h; exact absurd h (by simp)
      have hbk : boundedKeyStep args kwds typed = .ok (.argsTuple args) := by
        rw [boundedKeyStep_eq, if_pos hc]
      rw [boundedCall_keyOk m typed s args kwds comp (.argsTuple args) hbk]
      rw [if_neg]
      simp only [keyHashable, pyListHashable_eq_all, hargs]
      simp
    · have hbk : boundedKeyStep args kwds typed = .error .typeError := by
        rw [boundedKeyStep_eq, if_neg hc]
        exact mkKey_error_of_unhashable args kwds typed h
      exact boundedCall_keyErr m typed s args kwds comp .typeError hbk
  · intro v hv
    simp [disabledCall, hv]

/-- Witness for the amended C4 with a list argument in both caching modes. -/
theorem claim4_witness :
    unboundedCall false (⟨[], 2, 3⟩ : CState CacheKey PyVal) [.vlist [.vint 1]] []
        (.ok (.vint 7)) = (⟨[], 2, 3⟩, .error .typeError) ∧
    boundedCall 100 false (⟨[], 2, 3⟩ : CState CacheKey PyVal) [.vlist [.vint 1]] []
        (.ok (.vint 7)) = (⟨[], 2, 3⟩, .error .typeError) := by
  have h := claim4_amended false (⟨[], 2, 3⟩ : CState CacheKey PyVal)
    [.vlist [.vint 1]] [] (.ok (.vint 7)) (by rfl)
  exact ⟨h.1, h.2.1 100⟩

/-! ## C10: the bounded no-keyword untyped key is the raw argument tuple -/

/-- C10: in bounded mode with `typed=False` and no keyword arguments, the
key is exactly the positional-argument tuple — `_make_key` (and with it the
separator, the typed augmentation and the single-argument fast path) is
bypassed — and two such calls address the same entry iff their argument
tuples compare `==`-equal: starting from an empty cache, the second call is
a hit returning the first call's value iff `pyListEq` holds, and a second
miss otherwise. -/
theorem claim10_bounded_raw_tuple_key :
    (∀ args : List PyVal, boundedKeyStep args [] false = .ok (.argsTuple args)) ∧
    (∀ a b : List PyVal, keyEq (.argsTuple a) (.argsTuple b) = pyListEq a b) ∧
    (∀ (m : Int), 1 ≤ m → ∀ (a1 a2 : List PyVal) (v1 v2 : PyVal),
      pyListHashable a1 = true → pyListHashable a2 = true →
      ((boundedCall m false (boundedCall m false initState a1 [] (.ok v1)).1
          a2 [] (.ok v2)).1.hits = if pyListEq a1 a2 = true then 1 else 0) ∧
      (pyListEq a1 a2 = true →
        (boundedCall m false (boundedCall m false initState a1 [] (.ok v1)).1
          a2 [] (.ok v2)).2 = .ok v1)) := by
  have hkeystep : ∀ args : List PyVal,
      boundedKeyStep args [] false = .ok (.argsTuple args) := by
    intro args
    rw [boundedKeyStep_eq]
    simp
  refine ⟨hkeystep, fun a b => rfl, ?_⟩
  intro m hm a1 a2 v1 v2 hh1 hh2
  have hfirst : boundedCall m false initState a1 [] (.ok v1) =
      (⟨[(.argsTuple a1, v1)], 0, 1⟩, .ok v1) := by
    rw [boundedCall_keyOk m false initState a1 [] (.ok v1) (.argsTuple a1) (hkeystep a1)]
    rw [if_pos (by simpa [keyHashable] using hh1)]
    simp [boundedStep, initState, extract, lookupEntry, show ¬ (m ≤ 0) by omega]
  rw [hfirst]
  rw [boundedCall_keyOk m false _ a2 [] (.ok v2) (.argsTuple a2) (hkeystep a2)]
  rw [if_pos (by simpa [keyHashable] using hh2)]
  rcases hpe : pyListEq a1 a2 with _ | _
  · have hne : keyEq (.argsTuple a1) (.argsTuple a2) = false := hpe
    constructor
    · simp only [boundedStep, extract, lookupEntry, hne, List.find?]
      simp
      split <;> rfl
    · intro hcontra
      exact absurd hcontra (by simp)
  · have heq : keyEq (.argsTuple a1) (.argsTuple a2) = true := hpe
    constructor <;>
      simp [boundedStep, extract, lookupEntry, heq]

/-- Witness for C10: `f(3)` then `f(3.0)` with `maxSize = 2` address the
same entry (the tuples `(3,)` and `(3.0,)` compare equal), so the second
call returns the first call's cached value. -/
theorem claim10_witness :
    (boundedCall 2 false (boundedCall 2 false initState [.vint 3] [] (.ok (.vint 30))).1
      [.vfloat 3] [] (.ok (.vint 31))).2 = .ok (.vint 30) :=
  (claim10_bounded_raw_tuple_key.2.2 2 (by norm_num) [.vint 3] [.vfloat 3]
    (.vint 30) (.vint 31) (by rfl) (by rfl)).2 (by rfl)

/-! ## C8: keyword order normalization -/

/-- Lexicographic string `<` is asymmetric. -/
theorem strLtB_asymm : ∀ (x y : List Char),
    strLtB x y = true → strLtB y x = true → False := by
  intro x
  induction x with
  | nil => intro y hxy hyx; cases y <;> simp [strLtB] at hxy hyx
  | cons a as ih =>
    intro y hxy hyx
    cases y with
    | nil => simp [strLtB] at hxy
    | cons b bs =>
      by_cases h1 : charLtB a b = true <;> by_cases h2 : charLtB b a = true <;>
        simp only [strLtB, h1, h2, if_true, if_false, Bool.false_eq_true, ite_false,
          ite_true] at hxy hyx
      · simp [charLtB] at h1 h2; omega
      · exact ih bs hxy hyx

/-- Lexicographic string `<` is transitive. -/
theorem strLtB_trans : ∀ (x y z : List Char),
    strLtB x y = true → strLtB y z = true → strLtB x z = true := by
  intro x
  induction x with
  | nil =>
    intro y z hxy hyz
    cases y with
    | nil => simp [strLtB] at hxy
    | cons b bs =>
      cases z with
      | nil => simp [strLtB] at hyz
      | cons c cs => simp [strLtB]
  | cons a as ih =>
    intro y z hxy hyz
    cases y with
    | nil => simp [strLtB] at hxy
    | cons b bs =>
      cases z with
      | nil => simp [strLtB] at hyz
      | cons c cs =>
        by_cases h1 : charLtB a b = true <;> by_cases h2 : charLtB b a = true <;>
          simp only [strLtB, h1, h2, if_true, if_false, Bool.false_eq_true, ite_false,
            ite_true] at hxy ⊢
        all_goals (by_cases h3 : charLtB b c = true <;> by_cases h4 : charLtB c b = true <;>
          simp only [strLtB, h3, h4, if_true, if_false, Bool.false_eq_true, ite_false,
            ite_true] at hyz)
        all_goals simp only [charLtB, decide_eq_true_eq] at h1 h2 h3 h4
        all_goals (by_cases h5 : charLtB a c = true <;> by_cases h6 : charLtB c a = true <;>
          simp only [strLtB, h5, h6, if_true, if_false, Bool.false_eq_true, ite_false,
            ite_true])
        all_goals simp only [charLtB, decide_eq_true_eq] at h5 h6
        all_goals first
          | rfl
          | omega
          | (exact ih bs cs hxy hyz)

/-- Lexicographic string `<` is connex: two mutually non-smaller strings
are equal. -/
theorem strLtB_connex : ∀ (x y : List Char),
    strLtB x y = false → strLtB y x = false → x = y := by
  intro x
  induction x with
  | nil => intro y hxy _; cases y with
    | nil => rfl
    | cons b bs => simp [strLtB] at hxy
  | cons a as ih =>
    intro y hxy hyx
    cases y with
    | nil => simp [strLtB] at hyx
    | cons b bs =>
      by_cases h1 : charLtB a b = true <;> by_cases h2 : charLtB b a = true <;>
        simp only [strLtB, h1, h2, if_true, if_false, Bool.false_eq_true, ite_false,
          ite_true] at hxy hyx
      · simp at hxy
      · simp at hxy
      · simp at hyx
      · have hab : a = b := by
          simp only [charLtB, decide_eq_true_eq] at h1 h2
          exact Char.ext (UInt32.ext (by omega))
        rw [hab, ih bs hxy hyx]

/-- The keyword-sorting relation (comparison of names) is total. -/
theorem kwdLe_total (a b : String × PyVal) :
    strLeB a.1 b.1 = true ∨ strLeB b.1 a.1 = true := by
  by_cases h1 : strLeB a.1 b.1 = true
  · exact Or.inl h1
  · right
    simp only [strLeB, Bool.not_eq_true', Bool.not_eq_false] at h1 ⊢
    rcases h2 : strLtB a.1.data b.1.data
    · rfl
    · exact absurd (strLtB_asymm _ _ h2 h1) (fun h => h)

/-- The keyword-sorting relation is transitive. -/
theorem kwdLe_trans (a b c : String × PyVal)
    (hab : strLeB a.1 b.1 = true) (hbc : strLeB b.1 c.1 = true) :
    strLeB a.1 c.1 = true := by
  simp only [strLeB, Bool.not_eq_true', Bool.not_eq_false] at hab hbc ⊢
  rcases hca : strLtB c.1.data a.1.data
  · rfl
  · exfalso
    rcases hbc' : strLtB b.1.data c.1.data
    · have := strLtB_connex _ _ hbc' hbc
      rw [← this] at hca
      rw [hca] at hab
      exact absurd hab (by simp)
    · have := strLtB_trans _ _ _ hbc' hca
      rw [this] at hab
      exact absurd hab (by simp)

/-- Weak sortedness by name plus pairwise-distinct names gives strict
sortedness by name. -/
theorem sorted_strict_of_nodup (l : List (String × PyVal))
    (hs : List.Sorted (fun a b : String × PyVal => strLeB a.1 b.1 = true) l)
    (hn : (l.map Prod.fst).Nodup) :
    List.Pairwise (fun a b : String × PyVal => strLtB a.1.data b.1.data = true) l := by
  have hne : List.Pairwise (fun a b : String × PyVal => a.1 ≠ b.1) l :=
    List.pairwise_map.1 hn
  have hcomb := List.Pairwise.and hs hne
  refine hcomb.imp ?_
  rintro a b ⟨hle, hneq⟩
  rcases h : strLtB a.1.data b.1.data
  · exfalso
    simp only [strLeB, Bool.not_eq_true', Bool.not_eq_false] at hle
    exact hneq (String.ext (strLtB_connex _ _ h hle))
  · rfl

/-- Sorting a keyword mapping with pairwise-distinct names is
order-insensitive: two permutations of the same items sort identically. -/
theorem sortKwds_perm_eq (kwds1 kwds2 : List (String × PyVal))
    (hp : kwds1.Perm kwds2) (hnd : (kwds1.map Prod.fst).Nodup) :
    sortKwds kwds1 = sortKwds kwds2 := by
  haveI htot : IsTotal (String × PyVal) (fun a b => strLeB a.1 b.1 = true) :=
    ⟨kwdLe_total⟩
  haveI htrans : IsTrans (String × PyVal) (fun a b => strLeB a.1 b.1 = true) :=
    ⟨fun a b c => kwdLe_trans a b c⟩
  haveI hanti : IsAntisymm (String × PyVal)
      (fun a b => strLtB a.1.data b.1.data = true) :=
    ⟨fun a b h1 h2 => absurd (strLtB_asymm _ _ h1 h2) (fun h => h)⟩
  have hs1 : List.Sorted (fun a b : String × PyVal => strLeB a.1 b.1 = true)
      (sortKwds kwds1) := List.sorted_insertionSort _ kwds1
  have hs2 : List.Sorted (fun a b : String × PyVal => strLeB a.1 b.1 = true)
      (sortKwds kwds2) := List.sorted_insertionSort _ kwds2
  have hp1 : (sortKwds kwds1).Perm kwds1 := List.perm_insertionSort _ kwds1
  have hp2 : (sortKwds kwds2).Perm kwds2 := List.perm_insertionSort _ kwds2
  have hperm : (sortKwds kwds1).Perm (sortKwds kwds2) :=
    (hp1.trans hp).trans hp2.symm
  have hnd1 : ((sortKwds kwds1).map Prod.fst).Nodup :=
    ((hp1.map Prod.fst).nodup_iff).2 hnd
  have hnd2 : ((sortKwds kwds2).map Prod.fst).Nodup :=
    ((hperm.map Prod.fst).nodup_iff).1 hnd1
  exact List.eq_of_perm_of_sorted hperm
    (sorted_strict_of_nodup _ hs1 hnd1) (sorted_strict_of_nodup _ hs2 hnd2)

/-- C8: the key builder maps two calls with the same positional arguments
and the same keyword name-to-value mapping (a permutation of the same
items, names pairwise distinct as in any Python keyword mapping) to the
same key, whatever the order the keywords were supplied in, because the
keyword items are appended sorted by keyword name after the separator. -/
theorem claim8_kwd_order_normalized (args : List PyVal)
    (kwds1 kwds2 : List (String × PyVal)) (typed : Bool)
    (hp : kwds1.Perm kwds2) (hnd : (kwds1.map Prod.fst).Nodup) :
    mkKey args kwds1 typed = mkKey args kwds2 typed := by
  have hie : kwds1.isEmpty = kwds2.isEmpty := by
    have hlen := hp.length_eq
    cases kwds1 <;> cases kwds2 <;> simp_all [List.isEmpty]
  have hsort := sortKwds_perm_eq kwds1 kwds2 hp hnd
  have hkb : keyBase args kwds1 = keyBase args kwds2 := by
    unfold keyBase
    rw [hie, hsort]
  have htt : typedTail args kwds1 = typedTail args kwds2 := by
    unfold typedTail
    rw [hie, hsort]
  unfold mkKey
  rw [hkb, htt]

/-- Witness for C8: `f(1, b=2, a=3)` and `f(1, a=3, b=2)` produce the same
key. -/
theorem claim8_witness :
    mkKey [.vint 1] [("b", .vint 2), ("a", .vint 3)] false =
      mkKey [.vint 1] [("a", .vint 3), ("b", .vint 2)] false :=
  claim8_kwd_order_normalized [.vint 1] [("b", .vint 2), ("a", .vint 3)]
    [("a", .vint 3), ("b", .vint 2)] false
    (List.Perm.swap ("a", PyVal.vint 3) ("b", PyVal.vint 2) [])
    (by decide)

/-! ## C1: typed vs untyped keying of equal values of different types -/

/-- `==`-equal argument tuples have the same length. -/
theorem pyListEq_length : ∀ (a b : List PyVal), pyListEq a b = true → a.length = b.length := by
  intro a
  induction a with
  | nil => intro b h; cases b with
    | nil => rfl
    | cons x xs => simp [pyListEq] at h
  | cons x xs ih =>
    intro b h
    cases b with
    | nil => simp [pyListEq] at h
    | cons y ys =>
      simp only [pyListEq, Bool.and_eq_true] at h
      simp [ih ys h.2]

/-- Elementwise key-element equality of two bare-value sequences is
elementwise value equality. -/
theorem keyElemListEq_vals : ∀ (a b : List PyVal),
    keyElemListEq (a.map KeyElem.val) (b.map KeyElem.val) = pyListEq a b := by
  intro a
  induction a with
  | nil => intro b; cases b <;> simp [keyElemListEq, pyListEq]
  | cons x xs ih =>
    intro b
    cases b with
    | nil => simp [keyElemListEq, pyListEq]
    | cons y ys => simp [keyElemListEq, pyListEq, keyElemEq, ih ys]

/-- Elementwise key-element equality splits over appends of equal-length
prefixes. -/
theorem keyElemListEq_append : ∀ (x1 x2 y1 y2 : List KeyElem),
    x1.length = x2.length →
    keyElemListEq (x1 ++ y1) (x2 ++ y2) = (keyElemListEq x1 x2 && keyElemListEq y1 y2) := by
  intro x1
  induction x1 with
  | nil => intro x2 y1 y2 hlen; cases x2 with
    | nil => simp [keyElemListEq]
    | cons b bs => simp at hlen
  | cons a as ih =>
    intro x2 y1 y2 hlen
    cases x2 with
    | nil => simp at hlen
    | cons b bs =>
      simp only [List.length_cons] at hlen
      simp [keyElemListEq, ih bs y1 y2 (by omega), Bool.and_assoc]

/-- The typed augmentations of two argument tuples differing in some
runtime type are not elementwise equal. -/
theorem keyElemListEq_typs_ne : ∀ (a1 a2 : List PyVal) (i : Nat)
    (h1 : i < a1.length) (h2 : i < a2.length),
    pyType (a1.get ⟨i, h1⟩) ≠ pyType (a2.get ⟨i, h2⟩) →
    keyElemListEq (a1.map (fun v => KeyElem.typ (pyType v)))
      (a2.map (fun v => KeyElem.typ (pyType v))) = false := by
  intro a1
  induction a1 with
  | nil => intro a2 i h1; simp at h1
  | cons x xs ih =>
    intro a2 i h1 h2 hne
    cases a2 with
    | nil => simp at h2
    | cons y ys =>
      cases i with
      | zero =>
        simp only [List.get] at hne
        simp [keyElemListEq, keyElemEq, hne]
      | succ j =>
        simp only [List.length_cons] at h1 h2
        simp only [List.get] at hne
        have := ih ys j (by omega) (by omega) hne
        simp [keyElemListEq, this]

/-- Wrapping values as key elements preserves hashability of the sequence. -/
theorem vals_all_hashable (l : List PyVal) :
    (l.map KeyElem.val).all keyElemHashable = l.all pyHashable := by
  induction l with
  | nil => rfl
  | cons a tl ih => simp [keyElemHashable, ih]

/-- With no keyword arguments and `typed=True`, `_make_key` on hashable
arguments yields the `_HashedSeq` of values followed by types. -/
theorem mkKey_typed_nokwds (args : List PyVal) (h : args.all pyHashable = true) :
    mkKey args [] true =
      .ok (.hashedSeq (args.map KeyElem.val ++
        args.map (fun v => KeyElem.typ (pyType v)))) := by
  have hkb : keyBase args [] = args.map KeyElem.val := by simp [keyBase]
  have htt : typedTail args [] = args.map (fun v => KeyElem.typ (pyType v)) := by
    simp [typedTail]
  simp only [mkKey, if_true, hkb, htt, mkHashedSeq]
  rw [if_pos]
  rw [List.all_append, vals_all_hashable, h, typs_all_hashable]
  rfl

/-- With no keyword arguments and `typed=False`, `_make_key` on hashable
arguments yields the bare value (single fast-typed argument) or the
`_HashedSeq` of the values. -/
theorem mkKey_untyped_nokwds (args : List PyVal) (h : args.all pyHashable = true) :
    mkKey args [] false =
      .ok (match args with
        | [v] => if fastType (pyType v) then .bare v else .hashedSeq [KeyElem.val v]
        | _ => .hashedSeq (args.map KeyElem.val)) := by
  have hkb : keyBase args [] = args.map KeyElem.val := by simp [keyBase]
  simp only [mkKey, Bool.false_eq_true, if_false, hkb]
  rcases args with _ | ⟨x, _ | ⟨y, rest⟩⟩
  · simp [mkKeyUntyped, mkHashedSeq]
  · simp only [List.all_cons, List.all_nil, Bool.and_true] at h
    simp only [List.map, mkKeyUntyped]
    by_cases hf : fastType (pyType x) = true
    · simp [hf]
    · simp [hf, mkHashedSeq, keyElemHashable, h]
  · simp only [List.map, mkKeyUntyped, mkHashedSeq]
    rw [if_pos]
    have h2 : ((x :: y :: rest).map KeyElem.val).all keyElemHashable = true := by
      rw [vals_all_hashable, h]
    simpa [List.map] using h2

/-- Two sequential calls on a fresh cache, positional arguments only, both
computations completing; used to express "treated as distinct / the same
cache entry". -/
def twoCalls (msz : Option Int) (typed : Bool) (a1 a2 : List PyVal) (v1 v2 : PyVal) :
    CState CacheKey PyVal × Except PyErr PyVal :=
  lruCall msz typed (lruCall msz typed initState ⟨a1, [], .ok v1⟩).1 ⟨a2, [], .ok v2⟩

/-- First unbounded call on a fresh cache: a miss inserting the key. -/
theorem unbounded_first_call (typed : Bool) (a1 : List PyVal) (k1 : CacheKey) (v1 : PyVal)
    (hk1 : mkKey a1 [] typed = .ok k1) :
    unboundedCall typed initState a1 [] (.ok v1) = (⟨[(k1, v1)], 0, 1⟩, .ok v1) := by
  rw [unboundedCall_keyOk typed initState a1 [] (.ok v1) k1 hk1]
  simp [unboundedStep, initState, lookupEntry]

/-- Second unbounded call against a one-entry cache: a hit exactly when the
stored key is `==` to the probe key. -/
theorem unbounded_second_call (typed : Bool) (k1 : CacheKey) (v1 : PyVal)
    (a2 : List PyVal) (k2 : CacheKey) (v2 : PyVal)
    (hk2 : mkKey a2 [] typed = .ok k2) :
    unboundedCall typed (⟨[(k1, v1)], 0, 1⟩ : CState CacheKey PyVal) a2 [] (.ok v2) =
      if keyEq k1 k2 then (⟨[(k1, v1)], 1, 1⟩, .ok v1)
      else (⟨[(k1, v1), (k2, v2)], 0, 2⟩, .ok v2) := by
  rw [unboundedCall_keyOk typed _ a2 [] (.ok v2) k2 hk2]
  rcases h : keyEq k1 k2 <;>
    simp [unboundedStep, lookupEntry, List.find?, h]

/-- First bounded call on a fresh cache: a miss inserting the key. -/
theorem bounded_first_call (m : Int) (typed : Bool) (a1 : List PyVal) (k1 : CacheKey)
    (v1 : PyVal) (hm : 1 ≤ m)
    (hk1 : boundedKeyStep a1 [] typed = .ok k1) (hh1 : keyHashable k1 = true) :
    boundedCall m typed initState a1 [] (.ok v1) = (⟨[(k1, v1)], 0, 1⟩, .ok v1) := by
  rw [boundedCall_keyOk m typed initState a1 [] (.ok v1) k1 hk1, if_pos hh1]
  simp [boundedStep, initState, extract, lookupEntry, show ¬ (m ≤ 0) by omega]

/-- Second bounded call against a one-entry cache: a hit (with the stored
value moved to the most-recently-used position) exactly when the stored key
is `==` to the probe key; otherwise a second miss. -/
theorem bounded_second_call (m : Int) (typed : Bool) (k1 : CacheKey) (v1 : PyVal)
    (a2 : List PyVal) (k2 : CacheKey) (v2 : PyVal)
    (hk2 : boundedKeyStep a2 [] typed = .ok k2) (hh2 : keyHashable k2 = true) :
    ((boundedCall m typed (⟨[(k1, v1)], 0, 1⟩ : CState CacheKey PyVal) a2 [] (.ok v2)).1.hits =
        if keyEq k1 k2 then 1 else 0) ∧
    ((boundedCall m typed (⟨[(k1, v1)], 0, 1⟩ : CState CacheKey PyVal) a2 [] (.ok v2)).1.misses =
        if keyEq k1 k2 then 1 else 2) ∧
    (keyEq k1 k2 = true →
      (boundedCall m typed (⟨[(k1, v1)], 0, 1⟩ : CState CacheKey PyVal) a2 [] (.ok v2)).2 =
        .ok v1) := by
  rw [boundedCall_keyOk m typed _ a2 [] (.ok v2) k2 hk2, if_pos hh2]
  rcases h : keyEq k1 k2
  · refine ⟨?_, ?_, fun hc => absurd hc (by simp)⟩ <;>
      (simp only [boundedStep, extract, lookupEntry, List.find?, h, if_false,
        Bool.false_eq_true, ite_false]
       simp
       split <;> rfl)
  · refine ⟨?_, ?_, fun _ => ?_⟩ <;>
      simp [boundedStep, extract, lookupEntry, h]

/-- With `typed=True`, equal-valued argument tuples whose runtime types
differ at some position produce keys that are not `==`. -/
theorem typed_keys_distinct (a1 a2 : List PyVal) (i : Nat)
    (h1 : i < a1.length) (h2 : i < a2.length)
    (hpe : pyListEq a1 a2 = true)
    (hh1 : a1.all pyHashable = true) (hh2 : a2.all pyHashable = true)
    (hne : pyType (a1.get ⟨i, h1⟩) ≠ pyType (a2.get ⟨i, h2⟩)) :
    ∃ k1 k2, mkKey a1 [] true = .ok k1 ∧ mkKey a2 [] true = .ok k2 ∧
      keyEq k1 k2 = false := by
  refine ⟨_, _, mkKey_typed_nokwds a1 hh1, mkKey_typed_nokwds a2 hh2, ?_⟩
  simp only [keyEq]
  rw [keyElemListEq_append _ _ _ _ (by simp [pyListEq_length a1 a2 hpe])]
  rw [keyElemListEq_typs_ne a1 a2 i h1 h2 hne]
  simp

/-- With `typed=False` and no keywords, equal-valued argument tuples
produce `==`-equal `_make_key` keys, provided the single-argument fast path
does not apply to exactly one of the two. -/
theorem untyped_keys_equal (a1 a2 : List PyVal)
    (hpe : pyListEq a1 a2 = true)
    (hh1 : a1.all pyHashable = true) (hh2 : a2.all pyHashable = true)
    (hfast : ∀ x y, a1 = [x] → a2 = [y] → fastType (pyType x) = fastType (pyType y)) :
    ∃ k1 k2, mkKey a1 [] false = .ok k1 ∧ mkKey a2 [] false = .ok k2 ∧
      keyEq k1 k2 = true := by
  refine ⟨_, _, mkKey_untyped_nokwds a1 hh1, mkKey_untyped_nokwds a2 hh2, ?_⟩
  have hlen := pyListEq_length a1 a2 hpe
  rcases a1 with _ | ⟨x, _ | ⟨x2, xrest⟩⟩
  · rcases a2 with _ | ⟨y, ys⟩
    · rfl
    · simp at hlen
  · rcases a2 with _ | ⟨y, _ | ⟨y2, yrest⟩⟩
    · simp at hlen
    · have hxy : pyEq x y = true := by
        simp only [pyListEq, Bool.and_eq_true] at hpe
        exact hpe.1
      have hf := hfast x y rfl rfl
      rcases hfx : fastType (pyType x)
      · rw [hfx] at hf
        simp only [if_neg (by simp [hfx] : ¬ fastType (pyType x) = true),
          if_neg (by simp [← hf] : ¬ fastType (pyType y) = true)]
        simp [keyEq, keyElemListEq, keyElemEq, hxy]
      · rw [hfx] at hf
        simp only [if_pos hfx, if_pos hf.symm]
        exact hxy
    · simp at hlen
  · rcases a2 with _ | ⟨y, _ | ⟨y2, yrest⟩⟩
    · simp at hlen
    · simp at hlen
    · simp only [keyEq]
      rw [keyElemListEq_vals]
      exact hpe

/-- With no keywords and `typed=True` the bounded wrapper also goes through
`_make_key`. -/
theorem boundedKeyStep_typed_nokwds (args : List PyVal) :
    boundedKeyStep args [] true = mkKey args [] true := by
  rw [boundedKeyStep_eq]
  simp

/-- Counterexample to C1: in unbounded mode with `typed=False`, `f(3)`
followed by `f(3.0)` is **two misses**, not a hit — the `int` takes the
bare-value fast path while the equal-valued `float` is wrapped in a
`_HashedSeq`, and a bare `3` is never `==` to a list — although the values
compare equal and only their runtime types differ.  The claim asserts the
second call would be a hit in every caching mode. -/
theorem claim1_counterexample :
    pyEq (.vint 3) (.vfloat 3) = true ∧
    pyType (.vint 3) ≠ pyType (.vfloat 3) ∧
    (twoCalls none false [.vint 3] [.vfloat 3] (.vint 30) (.vint 31)).1.hits = 0 ∧
    (twoCalls none false [.vint 3] [.vfloat 3] (.vint 30) (.vint 31)).1.misses = 2 := by
  refine ⟨rfl, by decide, rfl, rfl⟩

/-- C1 amended: with `typed=True`, two calls whose arguments compare equal
but differ in some runtime type are distinct entries (two misses on a fresh
cache) in both caching modes.  With `typed=False` such calls share one
entry (the second call is a hit returning the first value) in bounded mode
always, and in unbounded mode except when the arguments are a single
positional value and the fast path applies to exactly one of the two calls
(one value of a fast type — int, str, frozenset, NoneType — and the other
not, as with `3` versus `3.0`), in which case they are distinct entries. -/
theorem claim1_amended :
    (∀ (a1 a2 : List PyVal) (v1 v2 : PyVal) (i : Nat)
        (h1 : i < a1.length) (h2 : i < a2.length),
      pyListEq a1 a2 = true →
      a1.all pyHashable = true → a2.all pyHashable = true →
      pyType (a1.get ⟨i, h1⟩) ≠ pyType (a2.get ⟨i, h2⟩) →
      ((twoCalls none true a1 a2 v1 v2).1.hits = 0 ∧
       (twoCalls none true a1 a2 v1 v2).1.misses = 2) ∧
      (∀ m : Int, 1 ≤ m →
        (twoCalls (some m) true a1 a2 v1 v2).1.hits = 0 ∧
        (twoCalls (some m) true a1 a2 v1 v2).1.misses = 2)) ∧
    (∀ (m : Int), 1 ≤ m → ∀ (a1 a2 : List PyVal) (v1 v2 : PyVal),
      pyListEq a1 a2 = true →
      a1.all pyHashable = true → a2.all pyHashable = true →
      (twoCalls (some m) false a1 a2 v1 v2).1.hits = 1 ∧
      (twoCalls (some m) false a1 a2 v1 v2).1.misses = 1 ∧
      (twoCalls (some m) false a1 a2 v1 v2).2 = .ok v1) ∧
    (∀ (a1 a2 : List PyVal) (v1 v2 : PyVal),
      pyListEq a1 a2 = true →
      a1.all pyHashable = true → a2.all pyHashable = true →
      (∀ x y, a1 = [x] → a2 = [y] → fastType (pyType x) = fastType (pyType y)) →
      (twoCalls none false a1 a2 v1 v2).1.hits = 1 ∧
      (twoCalls none false a1 a2 v1 v2).1.misses = 1 ∧
      (twoCalls none false a1 a2 v1 v2).2 = .ok v1) := by
  refine ⟨?_, ?_, ?_⟩
  · intro a1 a2 v1 v2 i h1 h2 hpe hh1 hh2 hne
    obtain ⟨k1, k2, hk1, hk2, hkeq⟩ := typed_keys_distinct a1 a2 i h1 h2 hpe hh1 hh2 hne
    have hk1sh : k1 = .hashedSeq (a1.map KeyElem.val ++
        a1.map (fun v => KeyElem.typ (pyType v))) := by
      rw [mkKey_typed_nokwds a1 hh1] at hk1
      exact (Except.ok.injEq _ _ ▸ hk1.symm : _)
    constructor
    · simp only [twoCalls, lruCall]
      rw [unbounded_first_call true a1 k1 v1 hk1,
        unbounded_second_call true k1 v1 a2 k2 v2 hk2]
      simp [hkeq]
    · intro m hm
      have hm0 : m ≠ 0 := by omega
      have hbk1 : boundedKeyStep a1 [] true = .ok k1 := by
        rw [boundedKeyStep_typed_nokwds]; exact hk1
      have hbk2 : boundedKeyStep a2 [] true = .ok k2 := by
        rw [boundedKeyStep_typed_nokwds]; exact hk2
      have hh1' : keyHashable k1 = true := by rw [hk1sh]; rfl
      have hh2' : keyHashable k2 = true := by
        rw [mkKey_typed_nokwds a2 hh2] at hk2
        have : k2 = .hashedSeq (a2.map KeyElem.val ++
            a2.map (fun v => KeyElem.typ (pyType v))) :=
          (Except.ok.injEq _ _ ▸ hk2.symm : _)
        rw [this]; rfl
      simp only [twoCalls, lruCall, if_neg hm0]
      rw [bounded_first_call m true a1 k1 v1 hm hbk1 hh1']
      have hsecond := bounded_second_call m true k1 v1 a2 k2 v2 hbk2 hh2'
      rw [hkeq] at hsecond
      simp only [if_false, Bool.false_eq_true, ite_false] at hsecond
      exact ⟨hsecond.1, hsecond.2.1⟩
  · intro m hm a1 a2 v1 v2 hpe hh1 hh2
    have hm0 : m ≠ 0 := by omega
    have hbk1 : boundedKeyStep a1 [] false = .ok (.argsTuple a1) := by
      rw [boundedKeyStep_eq]; simp
    have hbk2 : boundedKeyStep a2 [] false = .ok (.argsTuple a2) := by
      rw [boundedKeyStep_eq]; simp
    have hh1' : keyHashable (CacheKey.argsTuple a1) = true := by
      simp [keyHashable, pyListHashable_eq_all, hh1]
    have hh2' : keyHashable (CacheKey.argsTuple a2) = true := by
      simp [keyHashable, pyListHashable_eq_all, hh2]
    have hkeq : keyEq (.argsTuple a1) (.argsTuple a2) = true := hpe
    simp only [twoCalls, lruCall, if_neg hm0]
    rw [bounded_first_call m false a1 (.argsTuple a1) v1 hm hbk1 hh1']
    have hsecond := bounded_second_call m false (.argsTuple a1) v1 a2 (.argsTuple a2) v2
      hbk2 hh2'
    rw [hkeq] at hsecond
    simp only [if_true, ite_true] at hsecond
    exact ⟨hsecond.1, hsecond.2.1, hsecond.2.2 trivial⟩
  · intro a1 a2 v1 v2 hpe hh1 hh2 hfast
    obtain ⟨k1, k2, hk1, hk2, hkeq⟩ := untyped_keys_equal a1 a2 hpe hh1 hh2 hfast
    simp only [twoCalls, lruCall]
    rw [unbounded_first_call false a1 k1 v1 hk1,
      unbounded_second_call false k1 v1 a2 k2 v2 hk2]
    simp [hkeq]

/-- Witness for the amended C1: `f(3)` versus `f(3.0)` with `typed=True` in
unbounded mode — two distinct entries. -/
theorem claim1_witness :
    (twoCalls none true [.vint 3] [.vfloat 3] (.vint 30) (.vint 31)).1.hits = 0 ∧
    (twoCalls none true [.vint 3] [.vfloat 3] (.vint 30) (.vint 31)).1.misses = 2 :=
  (claim1_amended.1 [.vint 3] [.vfloat 3] (.vint 30) (.vint 31) 0
    (by decide) (by decide) (by rfl) (by rfl) (by rfl) (by decide)).1

/-! ## C2: size bound and least-recently-used eviction

The recency claim is stated against a ghost-instrumented copy of the
bounded cache core: `AnnState` carries, alongside each entry, the index of
the call that last accessed it (hit or insertion), and a call counter.
`annStep` mirrors `boundedStep` exactly and only adds the timestamp
bookkeeping; a projection theorem ties the two.  "The evicted key is the
least recently accessed one" then becomes: the recency list is strictly
sorted by last-access stamp, eviction removes its head, and the head's
stamp is strictly below every other live entry's stamp. -/

/-- Run the generic bounded cache core over a sequence of (key, computation
outcome) pairs. -/
def runBounded {K V : Type} (keq : K → K → Bool) (m : Int) (s : CState K V) :
    List (K × Except PyErr V) → CState K V
  | [] => s
  | c :: cs => runBounded keq m (boundedStep keq m s c.1 c.2).1 cs

/-- Ghost state: the entries in recency order, each carrying the index of
the call that last accessed it, plus the number of calls made so far. -/
structure AnnState (K V : Type) where
  tentries : List (K × V × Nat)
  clock : Nat

/-- Forget the ghost stamps. -/
def annProj {K V : Type} (a : AnnState K V) : List (K × V) :=
  a.tentries.map (fun e => (e.1, e.2.1))

/-- The ghost stamps in recency order. -/
def timesOf {K V : Type} (a : AnnState K V) : List Nat :=
  a.tentries.map (fun e => e.2.2)

/-- `extract` on the stamped entries. -/
def extractT {K V : Type} (keq : K → K → Bool) (k : K) :
    List (K × V × Nat) → Option ((K × V × Nat) × List (K × V × Nat))
  | [] => none
  | e :: rest =>
    if keq e.1 k then some (e, rest)
    else match extractT keq k rest with
      | some (f, rest') => some (f, e :: rest')
      | none => none

/-- The ghost-instrumented bounded step: identical branch structure to
`boundedStep`, with the accessed (hit or inserted) entry stamped with the
current call index and the clock advanced on every call. -/
def annStep {K V : Type} (keq : K → K → Bool) (m : Int) (a : AnnState K V)
    (k : K) (comp : Except PyErr V) : AnnState K V :=
  match extractT keq k a.tentries with
  | some (e, rest) => ⟨rest ++ [(e.1, e.2.1, a.clock)], a.clock + 1⟩
  | none =>
    match comp with
    | .error _ => ⟨a.tentries, a.clock + 1⟩
    | .ok result =>
      if (a.tentries.length : Int) ≥ m then
        match a.tentries with
        | [] => ⟨a.tentries, a.clock + 1⟩
        | _ :: rest => ⟨rest ++ [(k, result, a.clock)], a.clock + 1⟩
      else ⟨a.tentries ++ [(k, result, a.clock)], a.clock + 1⟩

/-- Run the ghost-instrumented cache. -/
def annRun {K V : Type} (keq : K → K → Bool) (m : Int) (a : AnnState K V) :
    List (K × Except PyErr V) → AnnState K V
  | [] => a
  | c :: cs => annRun keq m (annStep keq m a c.1 c.2) cs

/-- A successful `extractT` splits the list around the first matching
entry. -/
theorem extractT_eq {K V : Type} (keq : K → K → Bool) (k : K) :
    ∀ (l : List (K × V × Nat)) (e : K × V × Nat) (rest : List (K × V × Nat)),
      extractT keq k l = some (e, rest) →
      ∃ pre post, l = pre ++ e :: post ∧ rest = pre ++ post ∧
        keq e.1 k = true ∧ ∀ x ∈ pre, keq x.1 k = false := by
  intro l
  induction l with
  | nil => intro e rest h; simp [extractT] at h
  | cons a tl ih =>
    intro e rest h
    by_cases hk : keq a.1 k = true
    · simp only [extractT, hk, if_true] at h
      simp only [Option.some.injEq, Prod.mk.injEq] at h
      exact ⟨[], tl, by simp [← h.1], by simp [← h.2], h.1 ▸ hk, by simp⟩
    · simp only [extractT, hk, Bool.false_eq_true, if_false] at h
      rcases hrec : extractT keq k tl with _ | ⟨f, rest'⟩ <;> rw [hrec] at h
      · simp at h
      · simp only [Option.some.injEq, Prod.mk.injEq] at h
        obtain ⟨pre, post, h1, h2, h3, h4⟩ := ih f rest' hrec
        refine ⟨a :: pre, post, by simp [h1, ← h.1], by simp [h2, ← h.2], h.1 ▸ h3, ?_⟩
        intro x hx
        rw [List.mem_cons] at hx
        rcases hx with rfl | hx
        · simpa using hk
        · exact h4 x hx

/-- A failing `extractT` means no stored key matches. -/
theorem extractT_none_all {K V : Type} (keq : K → K → Bool) (k : K) :
    ∀ (l : List (K × V × Nat)),
      extractT keq k l = none → ∀ x ∈ l, keq x.1 k = false := by
  intro l
  induction l with
  | nil => intro _ x hx; simp at hx
  | cons a tl ih =>
    intro h x hx
    by_cases hk : keq a.1 k = true
    · simp [extractT, hk] at h
    · rcases hrec : extractT keq k tl with _ | p
      · rw [List.mem_cons] at hx
        rcases hx with rfl | hx
        · simpa using hk
        · exact ih hrec x hx
      · simp [extractT, hk, hrec] at h

/-- `extract` on the projected entries mirrors `extractT` on the stamped
entries. -/
theorem extract_annProj {K V : Type} (keq : K → K → Bool) (k : K) :
    ∀ (l : List (K × V × Nat)),
      extract keq k (l.map (fun e => (e.1, e.2.1))) =
        (extractT keq k l).map
          (fun p => ((p.1.1, p.1.2.1), p.2.map (fun e => (e.1, e.2.1)))) := by
  intro l
  induction l with
  | nil => simp [extract, extractT]
  | cons a tl ih =>
    by_cases hk : keq a.1 k = true
    · simp [extract, extractT, hk]
    · simp only [List.map_cons, extract, extractT, hk, Bool.false_eq_true, if_false]
      rw [ih]
      rcases hrec : extractT keq k tl with _ | ⟨f, rest'⟩ <;> simp

/-- The ghost-instrumented step projects onto the real bounded step:
forgetting the stamps commutes with stepping, whatever the counters. -/
theorem annStep_proj {K V : Type} (keq : K → K → Bool) (m : Int)
    (a : AnnState K V) (k : K) (comp : Except PyErr V) (hits misses : Nat) :
    (boundedStep keq m (⟨annProj a, hits, misses⟩ : CState K V) k comp).1.entries =
      annProj (annStep keq m a k comp) := by
  unfold boundedStep annStep
  rcases hx : extractT keq k a.tentries with _ | ⟨e, rest⟩
  · have hex : extract keq k (annProj a) = none := by
      unfold annProj
      rw [extract_annProj keq k a.tentries, hx]
      rfl
    have hlk : lookupEntry keq (annProj a) k = none := (extract_none_iff keq k _).1 hex
    rw [show (⟨annProj a, hits, misses⟩ : CState K V).entries = annProj a from rfl, hex, hlk]
    rcases comp with err | v
    · rfl
    · simp only [Option.isSome_none, Bool.false_eq_true, if_false]
      have hlen : (annProj a).length = a.tentries.length := by
        unfold annProj; rw [List.length_map]
      rw [hlen]
      by_cases hcap : ((a.tentries.length : Int) ≥ m)
      · rw [if_pos hcap]
        rcases hl : a.tentries with _ | ⟨e0, rest0⟩ <;> rw [hl] at hcap
        · simp only [annProj, hl, List.map_nil]
          rw [if_pos (by simpa using hcap)]
          rfl
        · simp only [annProj, hl, List.map_cons]
          rw [if_pos (by simpa using hcap)]
          simp
      · rw [if_neg hcap, if_neg hcap]
        simp [annProj]
  · have hex : extract keq k (annProj a) =
        some ((e.1, e.2.1), rest.map (fun x => (x.1, x.2.1))) := by
      unfold annProj
      rw [extract_annProj keq k a.tentries, hx]
      rfl
    rw [show (⟨annProj a, hits, misses⟩ : CState K V).entries = annProj a from rfl, hex]
    simp [annProj]

/-- Run-level projection: the real bounded run's entries are the ghost
run's entries with the stamps forgotten. -/
theorem annRun_proj {K V : Type} (keq : K → K → Bool) (m : Int) :
    ∀ (ts : List (K × Except PyErr V)) (a : AnnState K V) (hits misses : Nat),
      (runBounded keq m (⟨annProj a, hits, misses⟩ : CState K V) ts).entries =
        annProj (annRun keq m a ts) := by
  intro ts
  induction ts with
  | nil => intro a hits misses; rfl
  | cons c cs ih =>
    intro a hits misses
    simp only [runBounded, annRun]
    have hstep := annStep_proj keq m a c.1 c.2 hits misses
    rcases hs : (boundedStep keq m (⟨annProj a, hits, misses⟩ : CState K V) c.1 c.2).1
      with ⟨ent, h', m'⟩
    rw [hs] at hstep
    simp only at hstep
    rw [hstep]
    exact ih (annStep keq m a c.1 c.2) h' m'

/-- Ghost invariant: the recency list carries strictly increasing
last-access stamps (LRU end smallest), all stamps are in the past, and live
keys are pairwise non-`==`. -/
def AnnInv {K V : Type} (keq : K → K → Bool) (a : AnnState K V) : Prop :=
  List.Pairwise (· < ·) (timesOf a) ∧
  (∀ t ∈ timesOf a, t < a.clock) ∧
  List.Pairwise (fun x y : K × V × Nat => keq x.1 y.1 = false) a.tentries

/-- The ghost invariant is preserved by every step (symmetry of `==` is
needed to re-establish key distinctness after the hit relink). -/
theorem annStep_inv {K V : Type} (keq : K → K → Bool)
    (h_symm : ∀ x y, keq x y = keq y x) (m : Int)
    (a : AnnState K V) (k : K) (comp : Except PyErr V) (h : AnnInv keq a) :
    AnnInv keq (annStep keq m a k comp) := by
  obtain ⟨tent, clock⟩ := a
  obtain ⟨ht, hc, hd⟩ := h
  simp only [timesOf] at ht hc
  simp only at hd
  unfold annStep
  rcases hx : extractT keq k tent with _ | ⟨e, rest⟩
  · have hall := extractT_none_all keq k tent hx
    rcases comp with err | v
    · exact ⟨ht, fun t htm => Nat.lt_succ_of_lt (hc t htm), hd⟩
    · dsimp only
      by_cases hcap : ((tent.length : Int) ≥ m)
      · rw [if_pos hcap]
        rcases tent with _ | ⟨e0, rest0⟩
        · exact ⟨ht, fun t htm => Nat.lt_succ_of_lt (hc t htm), hd⟩
        · simp only [timesOf, List.map_cons, List.pairwise_cons] at ht hc hd ⊢
          refine ⟨?_, ?_, ?_⟩
          · simp only [timesOf, List.map_append, List.map_cons, List.map_nil]
            rw [List.pairwise_append]
            refine ⟨ht.2, by simp, ?_⟩
            intro t htm u hu
            simp only [List.mem_singleton] at hu
            subst hu
            exact hc t (List.mem_cons_of_mem _ htm)
          · simp only [timesOf, List.map_append, List.map_cons, List.map_nil]
            intro t htm
            rcases List.mem_append.1 htm with htm | htm
            · exact Nat.lt_succ_of_lt (hc t (List.mem_cons_of_mem _ htm))
            · simp only [List.mem_singleton] at htm
              subst htm
              exact Nat.lt_succ_self _
          · rw [List.pairwise_append]
            refine ⟨hd.2, by simp, ?_⟩
            intro x hxm y hy
            simp only [List.mem_singleton] at hy
            subst hy
            exact hall x (List.mem_cons_of_mem _ hxm)
      · rw [if_neg hcap]
        refine ⟨?_, ?_, ?_⟩
        · simp only [timesOf, List.map_append, List.map_nil, List.map_cons]
          rw [List.pairwise_append]
          refine ⟨ht, by simp, ?_⟩
          intro t htm u hu
          simp only [List.mem_singleton] at hu
          subst hu
          exact hc t htm
        · simp only [timesOf, List.map_append, List.map_nil, List.map_cons]
          intro t htm
          rcases List.mem_append.1 htm with htm | htm
          · exact Nat.lt_succ_of_lt (hc t htm)
          · simp only [List.mem_singleton] at htm
            subst htm
            exact Nat.lt_succ_self _
        · rw [List.pairwise_append]
          exact ⟨hd, by simp, fun x hxm y hy => by
            simp only [List.mem_singleton] at hy
            subst hy
            exact hall x hxm⟩
  · obtain ⟨pre, post, hsplit, hrest, hek, hpre⟩ := extractT_eq keq k tent e rest hx
    have hrest_sub : rest.Sublist tent := by
      rw [hsplit, hrest]
      exact (List.sublist_cons_self e post).append_left pre
    have hcross : ∀ x ∈ rest, keq x.1 e.1 = false := by
      intro x hx2
      rw [hsplit] at hd
      rw [hrest] at hx2
      rw [List.pairwise_append] at hd
      rcases List.mem_append.1 hx2 with hx2 | hx2
      · exact hd.2.2 x hx2 e (List.mem_cons_self _ _)
      · rw [h_symm]
        exact (List.pairwise_cons.1 hd.2.1).1 x hx2
    refine ⟨?_, ?_, ?_⟩
    · simp only [timesOf, List.map_append, List.map_cons, List.map_nil]
      rw [List.pairwise_append]
      refine ⟨List.Pairwise.sublist (hrest_sub.map _) ht, by simp, ?_⟩
      intro t htm u hu
      simp only [List.mem_singleton] at hu
      subst hu
      exact hc t ((hrest_sub.map _).subset htm)
    · simp only [timesOf, List.map_append, List.map_cons, List.map_nil]
      intro t htm
      rcases List.mem_append.1 htm with htm | htm
      · exact Nat.lt_succ_of_lt (hc t ((hrest_sub.map _).subset htm))
      · simp only [List.mem_singleton] at htm
        subst htm
        exact Nat.lt_succ_self _
    · rw [List.pairwise_append]
      refine ⟨List.Pairwise.sublist hrest_sub hd, by simp, ?_⟩
      intro x hxm y hy
      simp only [List.mem_singleton] at hy
      subst hy
      exact hcross x hxm

/-- The ghost invariant holds along every run from the fresh cache. -/
theorem annRun_inv {K V : Type} (keq : K → K → Bool)
    (h_symm : ∀ x y, keq x y = keq y x) (m : Int) :
    ∀ (ts : List (K × Except PyErr V)) (a : AnnState K V), AnnInv keq a →
      AnnInv keq (annRun keq m a ts) := by
  intro ts
  induction ts with
  | nil => intro a h; exact h
  | cons c cs ih =>
    intro a h
    exact ih _ (annStep_inv keq h_symm m a c.1 c.2 h)

/-- The fresh ghost cache satisfies the invariant. -/
theorem annInv_init {K V : Type} (keq : K → K → Bool) :
    AnnInv keq (⟨[], 0⟩ : AnnState K V) := by
  refine ⟨List.Pairwise.nil, ?_, List.Pairwise.nil⟩
  intro t htm
  simp [timesOf] at htm

/-- Under the ghost invariant, an insertion at capacity evicts exactly the
head of the recency list, whose last-access stamp is strictly below that of
every other live entry — the least recently accessed one. -/
theorem annStep_evicts_lru {K V : Type} (keq : K → K → Bool) (m : Int)
    (a : AnnState K V) (k : K) (v : V) (e : K × V × Nat) (rest : List (K × V × Nat))
    (hinv : AnnInv keq a) (hl : a.tentries = e :: rest)
    (hmiss : extractT keq k a.tentries = none)
    (hcap : (a.tentries.length : Int) ≥ m) :
    annStep keq m a k (.ok v) = ⟨rest ++ [(k, v, a.clock)], a.clock + 1⟩ ∧
    (∀ f ∈ rest, e.2.2 < f.2.2) := by
  constructor
  · unfold annStep
    rw [hmiss]
    dsimp only
    rw [if_pos hcap, hl]
  · obtain ⟨ht, _, _⟩ := hinv
    simp only [timesOf, hl, List.map_cons, List.pairwise_cons] at ht
    intro f hf
    exact ht.1 f.2.2 (List.mem_map_of_mem _ hf)

/-- Under the ghost invariant, a step stamps exactly the entry it accesses
with the current call index and leaves every other entry (key, value and
stamp) untouched: a live entry's stamp is the index of the call that last
accessed it.  Reflexivity, symmetry and transitivity of `==` — which hold
for every hashable Python key type — identify "the accessed entry". -/
theorem annStep_stamps {K V : Type} (keq : K → K → Bool)
    (h_refl : ∀ x, keq x x = true)
    (h_symm : ∀ x y, keq x y = keq y x)
    (h_trans : ∀ x y z, keq x y = true → keq y z = true → keq x z = true)
    (m : Int) (a : AnnState K V) (k : K) (comp : Except PyErr V)
    (hinv : AnnInv keq a) :
    ∀ f ∈ (annStep keq m a k comp).tentries,
      (keq f.1 k = false → f ∈ a.tentries) ∧
      (keq f.1 k = true → f.2.2 = a.clock) := by
  obtain ⟨_, _, hd⟩ := hinv
  intro f hf
  unfold annStep at hf
  rcases hx : extractT keq k a.tentries with _ | ⟨e, rest⟩ <;> rw [hx] at hf
  · have hall := extractT_none_all keq k _ hx
    rcases comp with err | v
    · exact ⟨fun _ => hf, fun hcontra => absurd (hall f hf) (by simp [hcontra])⟩
    · dsimp only at hf
      by_cases hcap : ((a.tentries.length : Int) ≥ m)
      · rw [if_pos hcap] at hf
        rcases hl : a.tentries with _ | ⟨e0, rest0⟩ <;> rw [hl] at hf
        · exfalso
          simp at hf
        · dsimp only at hf
          simp only [List.mem_append, List.mem_singleton] at hf
          rcases hf with hf | hf
          · have hfm2 : f ∈ e0 :: rest0 := List.mem_cons_of_mem _ hf
            have hfm : f ∈ a.tentries := by rw [hl]; exact hfm2
            exact ⟨fun _ => hfm2, fun hcontra =>
              absurd (hall f hfm) (by simp [hcontra])⟩
          · subst hf
            exact ⟨fun hcontra => absurd (h_refl k) (by simp [hcontra]), fun _ => rfl⟩
      · rw [if_neg hcap] at hf
        simp only [List.mem_append, List.mem_singleton] at hf
        rcases hf with hf | hf
        · exact ⟨fun _ => hf, fun hcontra => absurd (hall f hf) (by simp [hcontra])⟩
        · subst hf
          exact ⟨fun hcontra => absurd (h_refl k) (by simp [hcontra]), fun _ => rfl⟩
  · obtain ⟨pre, post, hsplit, hrest, hek, _⟩ := extractT_eq keq k a.tentries e rest hx
    dsimp only at hf
    simp only [List.mem_append, List.mem_singleton] at hf
    rcases hf with hf | hf
    · have hfm : f ∈ a.tentries := by
        rw [hsplit]
        rw [hrest] at hf
        rcases List.mem_append.1 hf with hf | hf
        · exact List.mem_append_left _ hf
        · exact List.mem_append_right _ (List.mem_cons_of_mem _ hf)
      refine ⟨fun _ => hfm, fun hcontra => ?_⟩
      have hfe : keq f.1 e.1 = true := h_trans _ _ _ hcontra ((h_symm _ _).trans hek ▸ rfl)
      have hcross : keq f.1 e.1 = false := by
        rw [hsplit] at hd
        rw [hrest] at hf
        rw [List.pairwise_append] at hd
        rcases List.mem_append.1 hf with hf | hf
        · exact hd.2.2 f hf e (List.mem_cons_self _ _)
        · rw [h_symm]
          exact (List.pairwise_cons.1 hd.2.1).1 f hf
      rw [hfe] at hcross
      exact absurd hcross (by simp)
    · subst hf
      exact ⟨fun hcontra => absurd hek (by simp [hcontra]), fun _ => rfl⟩

/-- The bounded step never grows the entry list beyond the bound. -/
theorem boundedStep_length_le {K V : Type} (keq : K → K → Bool) (m : Int)
    (s : CState K V) (k : K) (comp : Except PyErr V)
    (h : (s.entries.length : Int) ≤ m) :
    (((boundedStep keq m s k comp).1.entries.length : Int)) ≤ m := by
  obtain ⟨ents, shits, smisses⟩ := s
  simp only at h
  unfold boundedStep
  dsimp only
  rcases hx : extract keq k ents with _ | ⟨link, rest⟩
  · rcases comp with e | v
    · exact h
    · dsimp only
      by_cases hl : (lookupEntry keq ents k).isSome = true
      · rw [if_pos hl]
        exact h
      · rw [if_neg hl]
        by_cases hcap : ((ents.length : Int) ≥ m)
        · rw [if_pos hcap]
          rcases ents with _ | ⟨e0, rest0⟩
          · exact h
          · simp only [List.length_cons] at h
            simp only [List.length_append, List.length_cons, List.length_nil]
            push_cast at h ⊢
            omega
        · rw [if_neg hcap]
          simp only [List.length_append, List.length_cons, List.length_nil]
          push_cast at hcap ⊢
          omega
  · have hlen := extract_some_length keq k ents link rest hx
    simp only [List.length_append, List.length_cons, List.length_nil]
    push_cast at h ⊢
    omega

/-- One call in bounded mode never grows the entry list beyond the bound. -/
theorem lruCall_length_le (m : Int) (typed : Bool) (s : CState CacheKey PyVal)
    (c : Call) (hm : m ≠ 0) (h : (s.entries.length : Int) ≤ m) :
    (((lruCall (some m) typed s c).1.entries.length : Int)) ≤ m := by
  simp only [lruCall, if_neg hm]
  rcases hk : boundedKeyStep c.args c.kwds typed with e | key
  · rw [boundedCall_keyErr m typed s c.args c.kwds c.comp e hk]
    exact h
  · rw [boundedCall_keyOk m typed s c.args c.kwds c.comp key hk]
    by_cases hh : keyHashable key = true
    · rw [if_pos hh]
      exact boundedStep_length_le keyEq m s key c.comp h
    · rw [if_neg hh]
      exact h

/-- The whole-run size bound in bounded mode. -/
theorem runCalls_length_le (m : Int) (typed : Bool) (hm : m ≠ 0) :
    ∀ (ts : List Call) (s : CState CacheKey PyVal),
      (s.entries.length : Int) ≤ m →
      ((runCalls (some m) typed s ts).entries.length : Int) ≤ m := by
  intro ts
  induction ts with
  | nil => intro s h; exact h
  | cons c cs ih =>
    intro s h
    exact ih _ (lruCall_length_le m typed s c hm h)

/-- The A, B, A, then C call sequence of the recency scenario, with
`maxSize = 2`. -/
def abaCalls : List Call :=
  [⟨[.vint 1], [], .ok (.vint 11)⟩, ⟨[.vint 2], [], .ok (.vint 12)⟩,
   ⟨[.vint 1], [], .ok (.vint 99)⟩, ⟨[.vint 3], [], .ok (.vint 13)⟩]

/-- C2: in bounded mode with positive `maxSize = N`, (a) over every
sequential call sequence the `currsize` reported by `cache_info` never
exceeds `N`; (b) for the bounded cache core over any key type whose `==`
is an equivalence (as Python requires of dictionary keys), the ghost run —
which stamps each entry with the index of the call that last accessed it
and mirrors the real run exactly (projection) — keeps the recency list
strictly sorted by last-access stamp, every insertion at capacity evicts
the head of that list, whose stamp is strictly the smallest (the least
recently accessed live entry), and stamps are faithful: each step restamps
exactly the entry it accesses and leaves all others untouched; and (c)
concretely, with `maxSize = 2`, calling A, then B, then A again, then a new
key C evicts B and keeps A (touched more recently) and C. -/
theorem claim2_lru_bound_and_recency :
    (∀ (m : Int), 1 ≤ m → ∀ (typed : Bool) (ts : List Call),
      ((cacheInfo (some m) (runCalls (some m) typed initState ts)).currsize : Int) ≤ m) ∧
    (∀ (K V : Type) (keq : K → K → Bool),
      (∀ x, keq x x = true) → (∀ x y, keq x y = keq y x) →
      (∀ x y z, keq x y = true → keq y z = true → keq x z = true) →
      ∀ (m : Int) (ts : List (K × Except PyErr V)),
        ((runBounded keq m initState ts).entries =
          annProj (annRun keq m ⟨[], 0⟩ ts)) ∧
        List.Pairwise (· < ·) (timesOf (annRun keq m ⟨[], 0⟩ ts)) ∧
        (∀ (k : K) (v : V) (e : K × V × Nat) (rest : List (K × V × Nat)),
          (annRun keq m ⟨[], 0⟩ ts).tentries = e :: rest →
          extractT keq k (annRun keq m ⟨[], 0⟩ ts).tentries = none →
          (((annRun keq m ⟨[], 0⟩ ts).tentries.length : Int) ≥ m) →
          annStep keq m (annRun keq m ⟨[], 0⟩ ts) k (.ok v) =
            ⟨rest ++ [(k, v, (annRun keq m ⟨[], 0⟩ ts).clock)],
              (annRun keq m ⟨[], 0⟩ ts).clock + 1⟩ ∧
          (∀ f ∈ rest, e.2.2 < f.2.2)) ∧
        (∀ (k : K) (comp : Except PyErr V) (f : K × V × Nat),
          f ∈ (annStep keq m (annRun keq m ⟨[], 0⟩ ts) k comp).tentries →
          (keq f.1 k = false → f ∈ (annRun keq m ⟨[], 0⟩ ts).tentries) ∧
          (keq f.1 k = true → f.2.2 = (annRun keq m ⟨[], 0⟩ ts).clock))) ∧
    (runCalls (some 2) false initState abaCalls =
      ⟨[(.argsTuple [.vint 1], .vint 11), (.argsTuple [.vint 3], .vint 13)], 1, 3⟩) := by
  refine ⟨?_, ?_, ?_⟩
  · intro m hm typed ts
    have h := runCalls_length_le m typed (by omega) ts initState (by simp [initState]; omega)
    simpa [cacheInfo] using h
  · intro K V keq h_refl h_symm h_trans m ts
    have hinv : AnnInv keq (annRun keq m (⟨[], 0⟩ : AnnState K V) ts) :=
      annRun_inv keq h_symm m ts _ (annInv_init keq)
    refine ⟨?_, hinv.1, ?_, ?_⟩
    · exact annRun_proj keq m ts ⟨[], 0⟩ 0 0
    · intro k v e rest hl hmiss hcap
      exact annStep_evicts_lru keq m _ k v e rest hinv hl hmiss hcap
    · intro k comp f hf
      exact annStep_stamps keq h_refl h_symm h_trans m _ k comp hinv f hf
  · rfl

/-- Witness for C2: the size bound at the concrete A, B, A, C sequence
with `maxSize = 2`, and the ghost recency machinery at natural-number
keys. -/
theorem claim2_witness :
    (((cacheInfo (some 2) (runCalls (some 2) false initState abaCalls)).currsize : Int) ≤ 2) ∧
    List.Pairwise (· < ·)
      (timesOf (annRun (fun a b : Nat => a == b) 2 ⟨[], 0⟩
        [((1 : Nat), Except.ok (10 : Nat)), ((2 : Nat), Except.ok (20 : Nat))])) := by
  have hsymm : ∀ x y : Nat, (x == y) = (y == x) := by
    intro x y
    by_cases h : x = y
    · simp [h]
    · simp [h, Ne.symm h]
  have htrans : ∀ x y z : Nat, (x == y) = true → (y == z) = true → (x == z) = true := by
    intro x y z h1 h2
    simp only [beq_iff_eq] at h1 h2 ⊢
    omega
  exact ⟨claim2_lru_bound_and_recency.1 2 (by norm_num) false abaCalls,
    (claim2_lru_bound_and_recency.2.1 Nat Nat (fun a b => a == b)
      (fun x => by simp) hsymm htrans 2
      [((1 : Nat), Except.ok (10 : Nat)), ((2 : Nat), Except.ok (20 : Nat))]).2.1⟩
